import Mathlib

/-!
Verification of the resolve system of `src/resolve.ts` (angular-ui-router resolve
module).  The development shallowly embeds the code:

* JavaScript objects that are used as string-keyed dictionaries are modelled as
  association lists (`List (String × α)`) with unique keys, written in insertion
  order; `alSet` is property assignment (overwrite-or-append).
* The utility helpers imported from `src/common` (not part of the given sources)
  are modelled from the spec and from their standard AngularJS semantics:
  `extend(dst, src...)` copies own properties of the sources onto `dst`, later
  sources overwriting earlier ones; `merge(dst, src)` copies only those
  properties of `src` that are *not yet present* on `dst` (the spec: "inherited
  parent values not already present are merged in"); `omit`/`pick` drop/keep the
  named properties.
* Promises ($q) are modelled by an explicit store of promise cells plus a FIFO
  microtask queue; the specific callbacks appearing in the source are
  defunctionalised into the `Cb` type, one constructor per syntactic callback.
* Invocables are either a service-name string or a function with its
  `$injector.annotate` parameter list and a semantic body; `$injector.invoke`
  passes, for each declared parameter, the value found in the supplied locals
  object (or `none` when the property is absent, i.e. `undefined`).
-/

namespace UIRouter

abbrev K := String

/-- Resolved values.  Invocables in this model return plain numbers; this is
enough for every claim considered here. -/
abbrev V := Nat

abbrev Err := String

/-! ## Association lists: the model of JavaScript objects -/

def alLookup {κ α : Type} [DecidableEq κ] : List (κ × α) → κ → Option α
  | [], _ => none
  | kv :: rest, k => if kv.1 = k then some kv.2 else alLookup rest k

/-- `obj.hasOwnProperty(k)` -/
def alHas {κ α : Type} [DecidableEq κ] (m : List (κ × α)) (k : κ) : Bool :=
  (alLookup m k).isSome

/-- Property assignment `obj[k] = v`: overwrite the first binding of `k`, or
append a new binding. -/
def alSet {κ α : Type} [DecidableEq κ] : List (κ × α) → κ → α → List (κ × α)
  | [], k, v => [(k, v)]
  | kv :: rest, k, v => if kv.1 = k then (k, v) :: rest else kv :: alSet rest k v

/-- Modelled from the spec: `extend(dst, src)` of `src/common` (AngularJS
`angular.extend` semantics): copy every own property of `src` onto `dst`,
properties of `src` overwriting same-named properties of `dst`. -/
def alExtend {κ α : Type} [DecidableEq κ] (dst src : List (κ × α)) : List (κ × α) :=
  src.foldl (fun d kv => alSet d kv.1 kv.2) dst

/-- Modelled from the spec: `merge(dst, src)` of `src/common`: copy only those
properties of `src` that are not already present on `dst` ("inherited parent
values not already present are merged in", spec §4.4). -/
def alMergeFill {κ α : Type} [DecidableEq κ] (dst src : List (κ × α)) : List (κ × α) :=
  src.foldl (fun d kv => if alHas d kv.1 then d else alSet d kv.1 kv.2) dst

/-- Modelled from the spec: `omit(obj, ...keys)` of `src/common`: the object
without the named properties. -/
def alOmit {κ α : Type} [DecidableEq κ] (m : List (κ × α)) (ks : List κ) : List (κ × α) :=
  m.filter (fun kv => ¬ kv.1 ∈ ks)

/-- Modelled from the spec: `pick(obj, keys)` of `src/common`: the object
restricted to the named properties. -/
def alPick {κ α : Type} [DecidableEq κ] (m : List (κ × α)) (ks : List κ) : List (κ × α) :=
  m.filter (fun kv => kv.1 ∈ ks)

theorem alLookup_set_self {κ α : Type} [DecidableEq κ] (m : List (κ × α)) (k : κ) (v : α) :
    alLookup (alSet m k v) k = some v := by
  induction m with
  | nil => simp [alSet, alLookup]
  | cons kv rest ih =>
      by_cases h : kv.1 = k
      · simp [alSet, h, alLookup]
      · simp [alSet, h, alLookup, ih]

theorem alLookup_set_ne {κ α : Type} [DecidableEq κ] (m : List (κ × α)) (k q : κ) (v : α)
    (h : q ≠ k) : alLookup (alSet m k v) q = alLookup m q := by
  induction m with
  | nil => simp [alSet, alLookup, Ne.symm h]
  | cons kv rest ih =>
      by_cases hk : kv.1 = k
      · subst hk
        simp [alSet, alLookup, Ne.symm h]
      · by_cases hq : kv.1 = q
        · simp [alSet, hk, alLookup, hq, h]
        · simp [alSet, hk, alLookup, hq, ih]

theorem alMergeFill_cons {κ α : Type} [DecidableEq κ]
    (dst : List (κ × α)) (kv : κ × α) (rest : List (κ × α)) :
    alMergeFill dst (kv :: rest) =
      alMergeFill (if alHas dst kv.1 then dst else alSet dst kv.1 kv.2) rest := rfl

theorem alLookup_mergeFill_present {κ α : Type} [DecidableEq κ]
    (src : List (κ × α)) (dst : List (κ × α)) (k : κ)
    (h : (alLookup dst k).isSome) :
    alLookup (alMergeFill dst src) k = alLookup dst k := by
  induction src generalizing dst with
  | nil => simp [alMergeFill]
  | cons kv rest ih =>
      rw [alMergeFill_cons]
      by_cases hh : alHas dst kv.1
      · rw [if_pos hh]
        exact ih dst h
      · rw [if_neg hh]
        by_cases hq : k = kv.1
        · subst hq
          exact absurd h (by simpa [alHas] using hh)
        · have h2 : (alLookup (alSet dst kv.1 kv.2) k).isSome := by
            rw [alLookup_set_ne dst kv.1 k kv.2 hq]
            exact h
          rw [ih (alSet dst kv.1 kv.2) h2, alLookup_set_ne dst kv.1 k kv.2 hq]

/-! ## Invocables and the legacy engine's plan compilation (`study`, resolve.ts 362-396)

An invocable is either a plain string (a service name for `$injector.get`) or a
function; `annotate` models `$injector.annotate` (the function's declared
parameter names).  The semantic body receives, for each declared parameter, the
value found in the injection locals (`none` = the property is absent /
`undefined`) and either returns a value or throws. -/

inductive Invocable where
  | str (service : String)
  | fn (params : List K) (body : List (Option V) → Except Err V)

def annotate : Invocable → List K
  | .str _ => []
  | .fn params _ => params

abbrev Mapping := List (K × Invocable)

/-- Visitation state of one name: `VISIT_IN_PROGRESS = 1` / `VISIT_DONE = 2`. -/
inductive Mark where
  | ip
  | dn
deriving DecidableEq

/-- One `(name, invocable, dependency-names)` triple of the compiled plan
(`plan.push(key, value, params)`, resolve.ts 382/388). -/
abbrev PlanEntry := K × Invocable × List K

structure VState where
  visited : List (K × Mark)
  cycle : List K
  plan : List PlanEntry

inductive StudyErr where
  | cyclic (trace : List K)
  | fuelout

/-- The message of the error thrown at resolve.ts 377:
`"Cyclic dependency: " + cycle.join(" -> ")`. -/
def cycleErrorMessage (trace : List K) : String :=
  "Cyclic dependency: " ++ String.intercalate " -> " trace

/-- Tail of `visit` (resolve.ts 388-392): append the entry to the plan, pop the
trace, mark the key done. -/
def visitDone (s : VState) (key : K) (e : PlanEntry) : VState :=
  ⟨alSet s.visited key Mark.dn, s.cycle.dropLast, s.plan ++ [e]⟩

/-- The body of the `forEach(params, ...)` loop at resolve.ts 385-387: recurse
into a parameter iff it names a *different* member of the mapping. -/
def visitStep (inv : Mapping) (rec : VState → K → Invocable → Except StudyErr VState)
    (key : K) (st : VState) (p : K) : Except StudyErr VState :=
  if p = key then pure st
  else
    match alLookup inv p with
    | some vp => rec st p vp
    | none => pure st

/-- `visit(value, key)` of `study` (resolve.ts 369-393), with a fuel argument
standing in for the call stack; `study` supplies enough fuel for the recursion
depth, which is bounded by the number of invocables (proved below).  The thrown
cycle error carries `cycle.splice(0, cycle.indexOf(key))`, i.e. the trace
truncated to start at the first occurrence of the repeated name. -/
def visit (inv : Mapping) : Nat → VState → K → Invocable → Except StudyErr VState
  | 0 => fun _ _ _ => Except.error StudyErr.fuelout
  | fuel + 1 => fun s key value =>
      if alLookup s.visited key = some Mark.dn then Except.ok s
      else if alLookup s.visited key = some Mark.ip then
        Except.error (StudyErr.cyclic
          ((s.cycle ++ [key]).drop ((s.cycle ++ [key]).indexOf key)))
      else
        match value with
        | Invocable.str svc =>
            Except.ok (visitDone ⟨alSet s.visited key Mark.ip, s.cycle ++ [key], s.plan⟩
              key (key, Invocable.str svc, []))
        | Invocable.fn params body =>
            match params.foldlM (visitStep inv (visit inv fuel) key)
                (⟨alSet s.visited key Mark.ip, s.cycle ++ [key], s.plan⟩ : VState) with
            | Except.error e => Except.error e
            | Except.ok s2 => Except.ok (visitDone s2 key (key, Invocable.fn params body, params))

/-- `study` (resolve.ts 362-396): `forEach(invocables, visit)`; the compiled
plan is the only surviving output. -/
def study (inv : Mapping) : Except StudyErr (List PlanEntry) :=
  match inv.foldlM (fun st kv => visit inv (inv.length + 1) st kv.1 kv.2) (⟨[], [], []⟩ : VState) with
  | Except.error e => Except.error e
  | Except.ok s => Except.ok s.plan

/-! ### Correctness of `study`: topological order (C3)

`depEdge inv a b` holds when the invocable named `a` declares a dependency `b`
that `visit` recurses into: `b` is a different name that is itself a member of
the mapping (resolve.ts 386: `param !== key && invocables.hasOwnProperty(param)`).
A mapping is acyclic when this relation admits no nontrivial loop. -/

def depEdge (inv : Mapping) (a b : K) : Prop :=
  b ≠ a ∧ ∃ v, alLookup inv a = some v ∧ b ∈ annotate v ∧ (alLookup inv b).isSome

def AcyclicMapping (inv : Mapping) : Prop :=
  ∀ k, ¬ Relation.TransGen (depEdge inv) k k

def planKeys (plan : List PlanEntry) : List K := plan.map Prod.fst

/-- The plan is topologically ordered: wherever the plan splits as
`pre ++ e :: post`, every dependency of `e` that is a *different* member of the
mapping already occurs among the keys of `pre`. -/
def PlanTopo (inv : Mapping) (plan : List PlanEntry) : Prop :=
  ∀ pre e post, plan = pre ++ e :: post →
    ∀ p, p ∈ e.2.2 → p ≠ e.1 → (alLookup inv p).isSome → p ∈ planKeys pre

def keysList (inv : Mapping) : List K := (inv.map Prod.fst).dedup

/-- Number of mapping keys not yet carrying a visitation mark; bounds the
remaining recursion depth of `visit`. -/
def unmarked (inv : Mapping) (s : VState) : Nat :=
  (keysList inv).countP (fun k => (alLookup s.visited k).isNone)

/-- Invariant tying the visitation state to the plan built so far and to the
in-progress trace. -/
structure VInv (inv : Mapping) (s : VState) : Prop where
  dn_plan : ∀ q, alLookup s.visited q = some Mark.dn ↔ q ∈ planKeys s.plan
  topo : PlanTopo inv s.plan
  ip_cycle : ∀ q, alLookup s.visited q = some Mark.ip → q ∈ s.cycle
  chain : List.Chain' (depEdge inv) s.cycle

/-- The trace below the visited key either is empty (top-level call) or ends in
a name whose invocable depends on the key. -/
def StackTo (inv : Mapping) (cyc : List K) (key : K) : Prop :=
  cyc = [] ∨ ∃ l, cyc.getLast? = some l ∧ depEdge inv l key

/-- Everything `visit` guarantees about a successful return. -/
structure VisitOk (inv : Mapping) (s s1 : VState) (key : K) : Prop where
  hinv : VInv inv s1
  key_dn : alLookup s1.visited key = some Mark.dn
  plan_ext : ∃ t, s1.plan = s.plan ++ t
  dn_mono : ∀ q, alLookup s.visited q = some Mark.dn → alLookup s1.visited q = some Mark.dn
  some_mono : ∀ q, (alLookup s.visited q).isSome → (alLookup s1.visited q).isSome
  cycle_eq : s1.cycle = s.cycle

theorem unmarked_le_of_mono (inv : Mapping) (s s1 : VState)
    (h : ∀ q, (alLookup s.visited q).isSome → (alLookup s1.visited q).isSome) :
    unmarked inv s1 ≤ unmarked inv s := by
  refine List.countP_mono_left ?_
  intro k _ hk
  simp only [decide_eq_true_eq, Option.isNone_iff_eq_none] at hk ⊢
  cases hs : alLookup s.visited k with
  | none => rfl
  | some m =>
      exact absurd (h k (by simp [hs])) (by simp [hk])

theorem countP_pred_flip {α : Type} [DecidableEq α] :
    ∀ (l : List α) (k : α) (p q : α → Bool), l.Nodup → k ∈ l →
      p k = true → q k = false → (∀ x ∈ l, x ≠ k → q x = p x) →
      l.countP q + 1 = l.countP p
  | [], k, p, q, _, hk, _, _, _ => absurd hk (List.not_mem_nil k)
  | a :: l, k, p, q, hnd, hk, hpk, hqk, hagree => by
      rcases List.mem_cons.mp hk with h | h
      · subst h
        have hnotin : k ∉ l := (List.nodup_cons.mp hnd).1
        have hcnt : l.countP q = l.countP p := by
          refine List.countP_congr ?_
          intro x hx
          rw [hagree x (List.mem_cons_of_mem k hx) (fun he => hnotin (he ▸ hx))]
        simp [List.countP_cons, hpk, hqk, hcnt, Nat.add_comm]
      · have hne : a ≠ k := fun he => (List.nodup_cons.mp hnd).1 (he ▸ h)
        have ih := countP_pred_flip l k p q (List.nodup_cons.mp hnd).2 h hpk hqk
          (fun x hx hxk => hagree x (List.mem_cons_of_mem a hx) hxk)
        have ha : q a = p a := hagree a (List.mem_cons_self a l) hne
        simp only [List.countP_cons, ha]
        omega

theorem alLookup_of_nodup_mem {κ α : Type} [DecidableEq κ] :
    ∀ (m : List (κ × α)), (m.map Prod.fst).Nodup → ∀ kv ∈ m, alLookup m kv.1 = some kv.2
  | [], _, kv, h => absurd h (List.not_mem_nil kv)
  | a :: m, hnd, kv, h => by
      rcases List.mem_cons.mp h with he | hm
      · subst he
        simp [alLookup]
      · have hne : a.1 ≠ kv.1 := by
          intro heq
          exact (List.nodup_cons.mp hnd).1 (heq ▸ List.mem_map_of_mem Prod.fst hm)
        have ih := alLookup_of_nodup_mem m (List.nodup_cons.mp hnd).2 kv hm
        simp [alLookup, hne, ih]

theorem chain_getLast_transGen {R : K → K → Prop} :
    ∀ (l : List K) (a b : K), List.Chain R a l → l.getLast? = some b →
      Relation.TransGen R a b
  | [], _, _, _, h => by simp at h
  | [c], a, b, hch, h => by
      simp only [List.getLast?_singleton, Option.some.injEq] at h
      subst h
      exact Relation.TransGen.single ((List.chain_cons.mp hch).1)
  | c :: d :: l, a, b, hch, h => by
      have hc := List.chain_cons.mp hch
      have htail : (d :: l).getLast? = some b := by
        simpa [List.getLast?_cons_cons] using h
      exact Relation.TransGen.head hc.1 (chain_getLast_transGen (d :: l) c b hc.2 htail)

theorem alLookup_mem_keys {κ α : Type} [DecidableEq κ] :
    ∀ (m : List (κ × α)) (k : κ) (v : α), alLookup m k = some v → k ∈ m.map Prod.fst
  | [], k, v, h => by simp [alLookup] at h
  | kv :: m, k, v, h => by
      by_cases he : kv.1 = k
      · exact he ▸ List.mem_cons_self _ _
      · exact List.mem_cons_of_mem _
          (alLookup_mem_keys m k v (by simpa [alLookup, he] using h))

theorem alLookup_set_isSome {κ α : Type} [DecidableEq κ] (m : List (κ × α)) (k q : κ) (v : α)
    (h : (alLookup m q).isSome) : (alLookup (alSet m k v) q).isSome := by
  by_cases hq : q = k
  · subst hq
    simp [alLookup_set_self]
  · rw [alLookup_set_ne m k q v hq]
    exact h

theorem unmarked_set_ip (inv : Mapping) (s : VState) (key : K) (c : List K)
    (pl : List PlanEntry) (hmem : key ∈ keysList inv)
    (hnone : alLookup s.visited key = none) :
    unmarked inv (⟨alSet s.visited key Mark.ip, c, pl⟩ : VState) + 1 = unmarked inv s := by
  refine countP_pred_flip (keysList inv) key _ _ (List.nodup_dedup _) hmem ?_ ?_ ?_
  · simp [hnone]
  · simp [alLookup_set_self]
  · intro x _ hxk
    simp [alLookup_set_ne s.visited key x Mark.ip hxk]

/-- If the visitation trace is a dependency chain leading into `key` and `key`
is already on the trace, the dependency graph has a loop. -/
theorem stack_ip_loop (inv : Mapping) (cyc : List K) (key : K)
    (hch : List.Chain' (depEdge inv) cyc)
    (hstack : StackTo inv cyc key)
    (hmem : key ∈ cyc) :
    ∃ k, Relation.TransGen (depEdge inv) k k := by
  rcases hstack with hnil | ⟨l, hl, hedge⟩
  · rw [hnil] at hmem
    exact absurd hmem (List.not_mem_nil key)
  · rcases List.append_of_mem hmem with ⟨pre, suf, rfl⟩
    have hch2 : List.Chain' (depEdge inv) ((pre ++ key :: suf) ++ [key]) := by
      refine List.Chain'.append hch (List.chain'_singleton key) ?_
      intro x hx y hy
      rw [hl] at hx
      simp only [List.head?_cons, Option.mem_def, Option.some.injEq] at hx hy
      rw [← hx, ← hy]
      exact hedge
    have hsuffix : (key :: (suf ++ [key])) <:+ ((pre ++ key :: suf) ++ [key]) :=
      ⟨pre, by simp⟩
    have hch3 : List.Chain' (depEdge inv) (key :: (suf ++ [key])) := hch2.suffix hsuffix
    have hch4 : List.Chain (depEdge inv) key (suf ++ [key]) := hch3
    exact ⟨key, chain_getLast_transGen (suf ++ [key]) key key hch4 (List.getLast?_concat suf)⟩

theorem planTopo_append (inv : Mapping) (plan : List PlanEntry) (e : PlanEntry)
    (ht : PlanTopo inv plan)
    (he : ∀ p ∈ e.2.2, p ≠ e.1 → (alLookup inv p).isSome → p ∈ planKeys plan) :
    PlanTopo inv (plan ++ [e]) := by
  intro pre f post heq p hp hpf hps
  rcases List.eq_nil_or_concat post with hpost | ⟨post1, x, rfl⟩
  · subst hpost
    have hlen : plan.length = pre.length := by
      have hlen2 := congrArg List.length heq
      simp at hlen2
      omega
    rcases List.append_inj heq hlen with ⟨hpre, hf⟩
    injection hf with hef _
    subst hef
    subst hpre
    exact he p hp hpf hps
  · have heq2 : plan ++ [e] = (pre ++ f :: post1) ++ [x] := by
      rw [heq]
      simp
    rcases List.append_inj' heq2 rfl with ⟨hplan, _⟩
    exact ht pre f post1 hplan p hp hpf hps

/-- The closing step of `visit` (`visitDone`) turns the loop invariant into the
full guarantee. -/
theorem visitDone_master (inv : Mapping) (s s2 : VState) (key : K) (e : PlanEntry)
    (he1 : e.1 = key)
    (hnone : alLookup s.visited key = none)
    (hinv : VInv inv s)
    (hinv2 : VInv inv s2)
    (hcyc2 : s2.cycle = s.cycle ++ [key])
    (hplan2 : ∃ t, s2.plan = s.plan ++ t)
    (hdnm2 : ∀ q, alLookup s.visited q = some Mark.dn → alLookup s2.visited q = some Mark.dn)
    (hsm2 : ∀ q, (alLookup s.visited q).isSome → (alLookup s2.visited q).isSome)
    (hdeps : ∀ p ∈ e.2.2, p ≠ key → (alLookup inv p).isSome →
      alLookup s2.visited p = some Mark.dn) :
    VisitOk inv s (visitDone s2 key e) key := by
  have hcyc3 : (visitDone s2 key e).cycle = s.cycle := by
    simp only [visitDone, hcyc2]
    exact List.dropLast_concat
  refine ⟨⟨?_, ?_, ?_, ?_⟩, ?_, ?_, ?_, ?_, ?_⟩
  · -- dn_plan
    intro q
    show alLookup (alSet s2.visited key Mark.dn) q = some Mark.dn ↔ q ∈ planKeys (s2.plan ++ [e])
    have hpk : planKeys (s2.plan ++ [e]) = planKeys s2.plan ++ [key] := by
      simp [planKeys, he1]
    by_cases hq : q = key
    · subst hq
      rw [alLookup_set_self, hpk]
      simp
    · rw [alLookup_set_ne s2.visited key q Mark.dn hq, hpk]
      rw [hinv2.dn_plan q]
      simp [hq]
  · -- topo
    refine planTopo_append inv s2.plan e hinv2.topo ?_
    intro p hp hpe hps
    exact (hinv2.dn_plan p).mp (hdeps p hp (he1 ▸ hpe) hps)
  · -- ip_cycle
    intro q hq
    by_cases hqk : q = key
    · rw [hqk, show (visitDone s2 key e).visited = alSet s2.visited key Mark.dn from rfl,
        alLookup_set_self] at hq
      simp at hq
    · rw [show (visitDone s2 key e).visited = alSet s2.visited key Mark.dn from rfl,
        alLookup_set_ne s2.visited key q Mark.dn hqk] at hq
      have hqc := hinv2.ip_cycle q hq
      rw [hcyc2] at hqc
      rw [hcyc3]
      rcases List.mem_append.mp hqc with h | h
      · exact h
      · simp at h
        exact absurd h hqk
  · -- chain
    rw [hcyc3]
    exact hinv.chain
  · -- key_dn
    exact alLookup_set_self s2.visited key Mark.dn
  · -- plan_ext
    rcases hplan2 with ⟨t, ht⟩
    exact ⟨t ++ [e], by simp [visitDone, ht]⟩
  · -- dn_mono
    intro q hq
    have hqk : q ≠ key := by
      intro he2
      rw [he2, hnone] at hq
      cases hq
    rw [show (visitDone s2 key e).visited = alSet s2.visited key Mark.dn from rfl,
      alLookup_set_ne s2.visited key q Mark.dn hqk]
    exact hdnm2 q hq
  · -- some_mono
    intro q hq
    exact alLookup_set_isSome s2.visited key q Mark.dn (hsm2 q hq)
  · -- cycle_eq
    exact hcyc3

theorem except_pure_eq {ε α : Type} (a : α) : (pure a : Except ε α) = Except.ok a := rfl

theorem except_bind_ok {ε α β : Type} (a : α) (g : α → Except ε β) :
    (Except.ok a : Except ε α) >>= g = g a := rfl

theorem except_bind_error {ε α β : Type} (e : ε) (g : α → Except ε β) :
    (Except.error e : Except ε α) >>= g = Except.error e := rfl

/-- Master induction for `visit`: with a dependency-chain trace and enough
fuel, `visit` never exhausts its fuel, only reports a cycle when the dependency
graph really has a loop, and on success extends the plan by a topologically
sound segment while marking the key done. -/
theorem visit_master (inv : Mapping) :
    ∀ (fuel : Nat) (s : VState) (key : K) (value : Invocable),
      alLookup inv key = some value →
      VInv inv s →
      StackTo inv s.cycle key →
      unmarked inv s < fuel →
      (match visit inv fuel s key value with
       | Except.error StudyErr.fuelout => False
       | Except.error (StudyErr.cyclic _) => ∃ k, Relation.TransGen (depEdge inv) k k
       | Except.ok s1 => VisitOk inv s s1 key) := by
  intro fuel
  induction fuel with
  | zero => intro s key value _ _ _ hf; exact absurd hf (Nat.not_lt_zero _)
  | succ fuel ih =>
    intro s key value hk hinv hstack hf
    by_cases hdn : alLookup s.visited key = some Mark.dn
    · have hv : visit inv (fuel + 1) s key value = Except.ok s := by
        simp [visit, hdn]
      rw [hv]
      exact ⟨hinv, hdn, ⟨[], by simp⟩, fun q h => h, fun q h => h, rfl⟩
    · by_cases hip : alLookup s.visited key = some Mark.ip
      · have hv : visit inv (fuel + 1) s key value = Except.error (StudyErr.cyclic
            ((s.cycle ++ [key]).drop ((s.cycle ++ [key]).indexOf key))) := by
          simp [visit, hdn, hip]
        rw [hv]
        exact stack_ip_loop inv s.cycle key hinv.chain hstack (hinv.ip_cycle key hip)
      · have hnone : alLookup s.visited key = none := by
          cases hvv : alLookup s.visited key with
          | none => rfl
          | some m => cases m with
            | ip => exact absurd hvv hip
            | dn => exact absurd hvv hdn
        have hkeymem : key ∈ keysList inv := by
          have := alLookup_mem_keys inv key value hk
          simpa [keysList, List.mem_dedup] using this
        have hchainc : List.Chain' (depEdge inv) (s.cycle ++ [key]) := by
          refine List.Chain'.append hinv.chain (List.chain'_singleton key) ?_
          intro x hx y hy
          rcases hstack with hnil | ⟨l, hl, hedge⟩
          · rw [hnil] at hx
            simp at hx
          · rw [hl] at hx
            simp only [List.head?_cons, Option.mem_def, Option.some.injEq] at hx hy
            rw [← hx, ← hy]
            exact hedge
        have hinv1 : VInv inv (⟨alSet s.visited key Mark.ip, s.cycle ++ [key], s.plan⟩ : VState) := by
          refine ⟨?_, hinv.topo, ?_, hchainc⟩
          · intro q
            by_cases hq : q = key
            · subst hq
              show alLookup (alSet s.visited q Mark.ip) q = some Mark.dn ↔ q ∈ planKeys s.plan
              rw [alLookup_set_self]
              constructor
              · intro h
                simp at h
              · intro h
                have hd := (hinv.dn_plan q).mpr h
                rw [hnone] at hd
                cases hd
            · show alLookup (alSet s.visited key Mark.ip) q = some Mark.dn ↔ q ∈ planKeys s.plan
              rw [alLookup_set_ne s.visited key q Mark.ip hq]
              exact hinv.dn_plan q
          · intro q hq
            show q ∈ s.cycle ++ [key]
            by_cases hqk : q = key
            · subst hqk
              simp
            · have hq2 : alLookup s.visited q = some Mark.ip := by
                rw [← alLookup_set_ne s.visited key q Mark.ip hqk]
                exact hq
              exact List.mem_append_left _ (hinv.ip_cycle q hq2)
        have hf1 : unmarked inv (⟨alSet s.visited key Mark.ip, s.cycle ++ [key], s.plan⟩ : VState) < fuel := by
          have h1 := unmarked_set_ip inv s key (s.cycle ++ [key]) s.plan hkeymem hnone
          omega
        have hdnm1 : ∀ q, alLookup s.visited q = some Mark.dn →
            alLookup (alSet s.visited key Mark.ip) q = some Mark.dn := by
          intro q hq
          have hqk : q ≠ key := by
            intro he
            rw [he, hnone] at hq
            cases hq
          rw [alLookup_set_ne s.visited key q Mark.ip hqk]
          exact hq
        have hsm1 : ∀ q, (alLookup s.visited q).isSome →
            (alLookup (alSet s.visited key Mark.ip) q).isSome :=
          fun q hq => alLookup_set_isSome s.visited key q Mark.ip hq
        have aux : ∀ (ps : List K) (params : List K) (body : List (Option V) → Except Err V),
            alLookup inv key = some (Invocable.fn params body) →
            (∀ p ∈ ps, p ∈ params) →
            ∀ (s0 : VState), VInv inv s0 → s0.cycle = s.cycle ++ [key] →
              unmarked inv s0 < fuel →
              (match ps.foldlM (visitStep inv (visit inv fuel) key) s0 with
               | Except.error StudyErr.fuelout => False
               | Except.error (StudyErr.cyclic _) => ∃ k, Relation.TransGen (depEdge inv) k k
               | Except.ok s2 =>
                   VInv inv s2 ∧ s2.cycle = s.cycle ++ [key] ∧ (∃ t, s2.plan = s0.plan ++ t) ∧
                   (∀ q, alLookup s0.visited q = some Mark.dn →
                     alLookup s2.visited q = some Mark.dn) ∧
                   (∀ q, (alLookup s0.visited q).isSome → (alLookup s2.visited q).isSome) ∧
                   (∀ p ∈ ps, p ≠ key → (alLookup inv p).isSome →
                     alLookup s2.visited p = some Mark.dn)) := by
          intro ps
          induction ps with
          | nil =>
              intro params body _ _ s0 hinv0 hcyc0 _
              simp only [List.foldlM_nil, except_pure_eq]
              exact ⟨hinv0, hcyc0, ⟨[], by simp⟩, fun q h => h, fun q h => h,
                fun p hp => absurd hp (List.not_mem_nil p)⟩
          | cons p ps ihp =>
              intro params body hkf hps s0 hinv0 hcyc0 hf0
              rw [List.foldlM_cons]
              by_cases hpk : p = key
              · rw [show visitStep inv (visit inv fuel) key s0 p = pure s0 from by
                  simp [visitStep, hpk]]
                simp only [except_pure_eq, except_bind_ok]
                have H := ihp params body hkf (fun q hq => hps q (List.mem_cons_of_mem p hq))
                  s0 hinv0 hcyc0 hf0
                cases hres : ps.foldlM (visitStep inv (visit inv fuel) key) s0 with
                | error e =>
                    rw [hres] at H
                    cases e with
                    | fuelout => exact H
                    | cyclic t => exact H
                | ok s2 =>
                    rw [hres] at H
                    rcases H with ⟨h1, h2, h3, h4, h5, h6⟩
                    refine ⟨h1, h2, h3, h4, h5, ?_⟩
                    intro q hq hqk hqs
                    rcases List.mem_cons.mp hq with rfl | hq2
                    · exact absurd hpk hqk
                    · exact h6 q hq2 hqk hqs
              · cases hlp : alLookup inv p with
                | none =>
                    rw [show visitStep inv (visit inv fuel) key s0 p = pure s0 from by
                      simp [visitStep, hpk, hlp]]
                    simp only [except_pure_eq, except_bind_ok]
                    have H := ihp params body hkf (fun q hq => hps q (List.mem_cons_of_mem p hq))
                      s0 hinv0 hcyc0 hf0
                    cases hres : ps.foldlM (visitStep inv (visit inv fuel) key) s0 with
                    | error e =>
                        rw [hres] at H
                        cases e with
                        | fuelout => exact H
                        | cyclic t => exact H
                    | ok s2 =>
                        rw [hres] at H
                        rcases H with ⟨h1, h2, h3, h4, h5, h6⟩
                        refine ⟨h1, h2, h3, h4, h5, ?_⟩
                        intro q hq hqk hqs
                        rcases List.mem_cons.mp hq with rfl | hq2
                        · rw [hlp] at hqs
                          cases hqs
                        · exact h6 q hq2 hqk hqs
                | some vp =>
                    rw [show visitStep inv (visit inv fuel) key s0 p = visit inv fuel s0 p vp from by
                      simp [visitStep, hpk, hlp]]
                    have hedge : depEdge inv key p :=
                      ⟨hpk, Invocable.fn params body, hkf, hps p (List.mem_cons_self p ps),
                        by rw [hlp]; rfl⟩
                    have hstack0 : StackTo inv s0.cycle p :=
                      Or.inr ⟨key, by rw [hcyc0]; exact List.getLast?_concat s.cycle, hedge⟩
                    have HV := ih s0 p vp hlp hinv0 hstack0 hf0
                    cases hv2 : visit inv fuel s0 p vp with
                    | error e =>
                        rw [hv2] at HV
                        simp only [except_bind_error]
                        cases e with
                        | fuelout => exact HV
                        | cyclic t => exact HV
                    | ok s0' =>
                        rw [hv2] at HV
                        simp only [except_bind_ok]
                        have hcyc0' : s0'.cycle = s.cycle ++ [key] := HV.cycle_eq.trans hcyc0
                        have hf0' : unmarked inv s0' < fuel :=
                          Nat.lt_of_le_of_lt (unmarked_le_of_mono inv s0 s0' HV.some_mono) hf0
                        have H := ihp params body hkf
                          (fun q hq => hps q (List.mem_cons_of_mem p hq)) s0' HV.hinv hcyc0' hf0'
                        cases hres : ps.foldlM (visitStep inv (visit inv fuel) key) s0' with
                        | error e =>
                            rw [hres] at H
                            cases e with
                            | fuelout => exact H
                            | cyclic t => exact H
                        | ok s2 =>
                            rw [hres] at H
                            rcases H with ⟨h1, h2, h3, h4, h5, h6⟩
                            rcases HV.plan_ext with ⟨t1, ht1⟩
                            rcases h3 with ⟨t2, ht2⟩
                            refine ⟨h1, h2, ⟨t1 ++ t2, by rw [ht2, ht1, List.append_assoc]⟩,
                              fun q hq => h4 q (HV.dn_mono q hq),
                              fun q hq => h5 q (HV.some_mono q hq), ?_⟩
                            intro q hq hqk hqs
                            rcases List.mem_cons.mp hq with rfl | hq2
                            · exact h4 q HV.key_dn
                            · exact h6 q hq2 hqk hqs
        cases value with
        | str svc =>
            have hv : visit inv (fuel + 1) s key (Invocable.str svc) =
                Except.ok (visitDone ⟨alSet s.visited key Mark.ip, s.cycle ++ [key], s.plan⟩
                  key (key, Invocable.str svc, [])) := by
              simp [visit, hdn, hip]
            rw [hv]
            exact visitDone_master inv s
              ⟨alSet s.visited key Mark.ip, s.cycle ++ [key], s.plan⟩ key
              (key, Invocable.str svc, []) rfl hnone hinv hinv1 rfl ⟨[], by simp⟩
              hdnm1 hsm1 (by intro q hq _ _; exact absurd hq (List.not_mem_nil q))
        | fn params body =>
            have hv : visit inv (fuel + 1) s key (Invocable.fn params body) =
                (match params.foldlM (visitStep inv (visit inv fuel) key)
                    (⟨alSet s.visited key Mark.ip, s.cycle ++ [key], s.plan⟩ : VState) with
                 | Except.error e => Except.error e
                 | Except.ok s2 =>
                     Except.ok (visitDone s2 key (key, Invocable.fn params body, params))) := by
              simp [visit, hdn, hip]
            rw [hv]
            have H := aux params params body hk (fun q hq => hq)
              ⟨alSet s.visited key Mark.ip, s.cycle ++ [key], s.plan⟩ hinv1 rfl hf1
            cases hres : params.foldlM (visitStep inv (visit inv fuel) key)
                (⟨alSet s.visited key Mark.ip, s.cycle ++ [key], s.plan⟩ : VState) with
            | error e =>
                rw [hres] at H
                cases e with
                | fuelout => exact H
                | cyclic t => exact H
            | ok s2 =>
                rw [hres] at H
                rcases H with ⟨h1, h2, h3, h4, h5, h6⟩
                exact visitDone_master inv s s2 key (key, Invocable.fn params body, params)
                  rfl hnone hinv h1 h2 h3 (fun q hq => h4 q (hdnm1 q hq))
                  (fun q hq => h5 q (hsm1 q hq)) h6

/-- C3: for every acyclic mapping of named invocables (with the unique keys of
a JavaScript object), `study` succeeds, and the compiled plan lists every entry
after all same-mapping entries it depends on (topological order). -/
theorem study_plan_topological (inv : Mapping)
    (hnd : (inv.map Prod.fst).Nodup)
    (hA : AcyclicMapping inv) :
    ∃ plan, study inv = Except.ok plan ∧ PlanTopo inv plan := by
  have aux2 : ∀ (l : List (K × Invocable)), (∀ kv ∈ l, alLookup inv kv.1 = some kv.2) →
      ∀ (s0 : VState), VInv inv s0 → s0.cycle = [] →
        ∃ s2, l.foldlM (fun st kv => visit inv (inv.length + 1) st kv.1 kv.2) s0 =
            Except.ok s2 ∧ VInv inv s2 ∧ s2.cycle = [] := by
    intro l
    induction l with
    | nil =>
        intro _ s0 h0 hc
        exact ⟨s0, by simp [List.foldlM_nil, except_pure_eq], h0, hc⟩
    | cons kv l ihl =>
        intro hall s0 h0 hc
        have hk := hall kv (List.mem_cons_self kv l)
        have hfuel : unmarked inv s0 < inv.length + 1 := by
          have h1 : unmarked inv s0 ≤ (keysList inv).length := List.countP_le_length _
          have h2 : (keysList inv).length ≤ inv.length := by
            have h3 := (List.dedup_sublist (inv.map Prod.fst)).length_le
            simpa [keysList] using h3
          omega
        have HM := visit_master inv (inv.length + 1) s0 kv.1 kv.2 hk h0 (Or.inl hc) hfuel
        cases hv : visit inv (inv.length + 1) s0 kv.1 kv.2 with
        | error e =>
            rw [hv] at HM
            cases e with
            | fuelout => exact HM.elim
            | cyclic t =>
                rcases HM with ⟨k, htg⟩
                exact absurd htg (hA k)
        | ok s1 =>
            rw [hv] at HM
            rcases ihl (fun q hq => hall q (List.mem_cons_of_mem kv hq)) s1 HM.hinv
              (HM.cycle_eq.trans hc) with ⟨s2, hfold, hi2, hc2⟩
            refine ⟨s2, ?_, hi2, hc2⟩
            rw [List.foldlM_cons, hv]
            simp only [except_bind_ok]
            exact hfold
  have hall : ∀ kv ∈ inv, alLookup inv kv.1 = some kv.2 :=
    fun kv h => alLookup_of_nodup_mem inv hnd kv h
  have hinit : VInv inv (⟨[], [], []⟩ : VState) := by
    refine ⟨?_, ?_, ?_, trivial⟩
    · intro q
      constructor
      · intro h
        simp [alLookup] at h
      · intro h
        simp [planKeys] at h
    · intro pre e post h p _ _ _
      exact absurd h (by simp)
    · intro q h
      simp [alLookup] at h
  rcases aux2 inv hall ⟨[], [], []⟩ hinit rfl with ⟨s2, hfold, hi2, _⟩
  refine ⟨s2.plan, ?_, hi2.topo⟩
  simp [study, hfold]

/-- A small acyclic mapping used to witness `study_plan_topological`. -/
def acyclicPair : Mapping :=
  [("a", Invocable.fn [] (fun _ => Except.ok 0)),
   ("b", Invocable.fn ["a"] (fun _ => Except.ok 0))]

theorem acyclicPair_edges : ∀ x y, depEdge acyclicPair x y → x = "b" ∧ y = "a" := by
  intro x y hxy
  rcases hxy with ⟨hne, v, hl, hm, hs⟩
  have hmem : x ∈ acyclicPair.map Prod.fst := alLookup_mem_keys _ _ _ hl
  have hx : x = "a" ∨ x = "b" := by simpa [acyclicPair] using hmem
  rcases hx with hx | hx
  · subst hx
    rw [show alLookup acyclicPair "a" = some (Invocable.fn [] (fun _ => Except.ok 0)) from rfl] at hl
    injection hl with hv
    rw [← hv] at hm
    simp [annotate] at hm
  · subst hx
    rw [show alLookup acyclicPair "b" = some (Invocable.fn ["a"] (fun _ => Except.ok 0)) from rfl] at hl
    injection hl with hv
    rw [← hv] at hm
    simp [annotate] at hm
    exact ⟨rfl, hm⟩

theorem acyclicPair_acyclic : AcyclicMapping acyclicPair := by
  have hshape : ∀ x y, Relation.TransGen (depEdge acyclicPair) x y → x = "b" ∧ y = "a" := by
    intro x y h
    induction h with
    | single h1 => exact acyclicPair_edges _ _ h1
    | tail _ h2 ihx => exact ⟨ihx.1, (acyclicPair_edges _ _ h2).2⟩
  intro k hk
  obtain ⟨h1, h2⟩ := hshape k k hk
  rw [h1] at h2
  exact absurd h2 (by decide)

/-- Witness for C3 at a concrete acyclic mapping. -/
theorem study_plan_topological_witness :
    ∃ plan, study acyclicPair = Except.ok plan ∧ PlanTopo acyclicPair plan :=
  study_plan_topological acyclicPair (by decide) acyclicPair_acyclic

/-! ## The legacy engine's plan execution (resolve.ts 402-503)

The returned `resolve(locals, parent, self)` closure is embedded as a
deterministic machine: a store of promise cells (`proms`) shared with any
parent resolution, a FIFO microtask queue, and the per-resolution mutable
state.  The three kinds of callbacks appearing in the source are
defunctionalised:

* `Cb.depThen key dep` — the success/failure pair passed to
  `promises[dep].then(...)` inside `__invoke(key, ...)` (resolve.ts 479-482);
* `Cb.invThen key` — the pair passed to `invocation.promise.then(...)` inside
  `proceed()` (resolve.ts 490-493);
* `Cb.parentThen` — `parent.then(done, fail)` (resolve.ts 458).

Dependency promises always settle with scalar payloads (`Payload.val`), the
resolution promise settles with the merged values object (`Payload.obj`).
`invoked` is ghost instrumentation recording each `$injector.invoke` of a plan
invocable, in order. -/

inductive Payload where
  | val (v : V)
  | obj (m : List (K × V))

inductive Cb where
  | depThen (key dep : K)
  | invThen (key : K)
  | parentThen

inductive PromState where
  | pending (subs : List Cb)
  | res (p : Payload)
  | rej (e : Err)

abbrev Task := Cb × Except Err Payload

/-- The view of a `parent` argument (a result of a previous `resolve` call):
its `$$values`, `$$promises`, `$$inheritedValues` and `$$failure` fields plus
the id of its resolution promise in the shared store. -/
structure ParentRes where
  pvalues : Option (List (K × V))
  ppromises : List (K × Nat)
  pinherited : Option (List (K × V))
  pfailure : Option Err
  ppid : Nat

/-- `NO_PARENT` (resolve.ts 339): an already-settled empty resolution,
`extend($q.when(NOTHING), { $$promises: NOTHING, $$values: NOTHING })`. -/
def noParent : ParentRes := ⟨some [], [], none, none, 0⟩

/-- Per-execution fixed data: the compiled plan, `invocableKeys` (captured at
study time, resolve.ts 364), the locals, the parent and the injector services
(for string invocables). -/
structure RCtx where
  plan : List PlanEntry
  invocableKeys : List K
  locals : List (K × V)
  parent : ParentRes
  services : List (String × V)

structure ES where
  proms : List (Nat × PromState)
  nextP : Nat
  promisesM : List (K × Nat)
  invIds : List (K × Nat)
  values : List (K × V)
  waitP : List (K × Nat)
  wait : Nat
  merged : Bool
  failure : Option Err
  parentVals : Option (List (K × V))
  resValues : Option (List (K × V))
  resInherited : Option (List (K × V))
  resPid : Nat
  invoked : List K
  queue : List Task

def schedule (s : ES) (t : Task) : ES := { s with queue := s.queue ++ [t] }

/-- `.then(onSuccess, onFailure)`: register on a pending promise, or schedule a
microtask straight away on a settled one. -/
def subscribe (s : ES) (i : Nat) (cb : Cb) : ES :=
  match alLookup s.proms i with
  | some (PromState.pending subs) =>
      { s with proms := alSet s.proms i (PromState.pending (subs ++ [cb])) }
  | some (PromState.res p) => schedule s (cb, Except.ok p)
  | some (PromState.rej e) => schedule s (cb, Except.error e)
  | none => s

/-- Settle a deferred: a no-op if it is already settled (promises settle once);
otherwise record the outcome and schedule a microtask for every registered
callback, in registration order. -/
def settleProm (s : ES) (i : Nat) (out : Except Err Payload) : ES :=
  match alLookup s.proms i with
  | some (PromState.pending subs) =>
      { s with
        proms := alSet s.proms i (match out with
          | Except.ok p => PromState.res p
          | Except.error e => PromState.rej e)
        queue := s.queue ++ subs.map (fun cb => (cb, out)) }
  | _ => s

/-- `fail(reason)` (resolve.ts 432-435): `result.$$failure = reason` (an
unconditional field write) and `resolution.reject(reason)`. -/
def failR (s : ES) (e : Err) : ES :=
  settleProm { s with failure := some e } s.resPid (Except.error e)

/-- `done()` (resolve.ts 421-430): decrement `wait`; on the last call merge the
parent values not already present (unless already merged), publish
`$$values`, delete `$$inheritedValues` and resolve the resolution promise. -/
def doneR (s : ES) : ES :=
  if s.wait = 1 then
    settleProm
      { s with
        wait := 0
        values := if s.merged then s.values else alMergeFill s.values (s.parentVals.getD [])
        resValues := some (if s.merged then s.values
          else alMergeFill s.values (s.parentVals.getD []))
        resInherited := none }
      s.resPid
      (Except.ok (Payload.obj (if s.merged then s.values
        else alMergeFill s.values (s.parentVals.getD []))))
  else { s with wait := s.wait - 1 }

/-- `$injector.invoke(invocable, self, values)`: a string invocable was wrapped
by `study` into `function() { return $injector.get(value) }`; a function
invocable receives, for each declared parameter, the current `values` property
of that name (absent = `undefined`). -/
def invokeInv (ctx : RCtx) (s : ES) (inv : Invocable) : Except Err V :=
  match inv with
  | Invocable.str svc =>
      match alLookup ctx.services svc with
      | some v => Except.ok v
      | none => Except.error ("Unknown provider: " ++ svc)
  | Invocable.fn params body => body (params.map (fun p => alLookup s.values p))

def planFind (plan : List PlanEntry) (key : K) : Option PlanEntry :=
  plan.find? (fun e => e.1 == key)

/-- `onfailure(reason)` of `__invoke` (resolve.ts 470-473): reject this
invocation's deferred, then fail the overall resolution. -/
def onfailureR (s : ES) (key : K) (e : Err) : ES :=
  failR
    (match alLookup s.invIds key with
     | some iid => settleProm s iid (Except.error e)
     | none => s) e

/-- `proceed()` of `__invoke` (resolve.ts 486-497): bail out if the overall
resolution already failed; otherwise invoke the invocable with the values
gathered so far, resolving or rejecting this invocation's deferred. -/
def proceedR (ctx : RCtx) (s : ES) (key : K) : ES :=
  if s.failure.isSome then s
  else
    match planFind ctx.plan key, alLookup s.invIds key with
    | some e, some iid =>
        match invokeInv ctx s e.2.1 with
        | Except.ok v =>
            subscribe (settleProm { s with invoked := s.invoked ++ [key] } iid
              (Except.ok (Payload.val v))) iid (Cb.invThen key)
        | Except.error err => onfailureR { s with invoked := s.invoked ++ [key] } key err
    | _, _ => s

/-- Run one scheduled callback to completion (including the synchronous
`proceed`/`done`/`fail` calls it makes). -/
def runCb (ctx : RCtx) (s : ES) : Task → ES
  | (Cb.depThen key dep, Except.ok (Payload.val v)) =>
      let s2 : ES := { s with
        values := alSet s.values dep v
        waitP := alSet s.waitP key ((alLookup s.waitP key).getD 0 - 1) }
      if (alLookup s.waitP key).getD 0 = 1 then proceedR ctx s2 key else s2
  | (Cb.depThen key _, Except.ok (Payload.obj _)) =>
      let s2 : ES := { s with waitP := alSet s.waitP key ((alLookup s.waitP key).getD 0 - 1) }
      if (alLookup s.waitP key).getD 0 = 1 then proceedR ctx s2 key else s2
  | (Cb.depThen key _, Except.error e) => onfailureR s key e
  | (Cb.invThen key, Except.ok (Payload.val v)) =>
      doneR { s with values := alSet s.values key v }
  | (Cb.invThen _, Except.ok (Payload.obj _)) => doneR s
  | (Cb.invThen key, Except.error e) => onfailureR s key e
  | (Cb.parentThen, Except.ok (Payload.obj m)) => doneR { s with parentVals := some m }
  | (Cb.parentThen, Except.ok (Payload.val _)) => doneR s
  | (Cb.parentThen, Except.error e) => failR s e

def stepR (ctx : RCtx) (s : ES) : ES :=
  match s.queue with
  | [] => s
  | t :: rest => runCb ctx { s with queue := rest } t

def runR (ctx : RCtx) : Nat → ES → ES
  | 0, s => s
  | n + 1, s => runR ctx n (stepR ctx s)

/-- One iteration of the `forEach(params, ...)` loop of `__invoke`
(resolve.ts 476-484): count and subscribe to a dependency that has a published
promise and is not a local. -/
def depSubscribeStep (ctx : RCtx) (key : K) (acc : Nat × ES) (dep : K) : Nat × ES :=
  if alHas acc.2.promisesM dep && !(alHas ctx.locals dep) then
    (acc.1 + 1, subscribe acc.2 ((alLookup acc.2.promisesM dep).getD 0) (Cb.depThen key dep))
  else acc

/-- `__invoke(key, invocable, params)` (resolve.ts 467-500): create the
invocation deferred, subscribe to every dependency that has a published
promise and is not a local (counting them), `proceed` at once when nothing is
awaited, and only then publish `promises[key]`. -/
def invokeEntry (ctx : RCtx) (s : ES) (e : PlanEntry) : ES :=
  let iid := s.nextP
  let sa : ES := { s with
    proms := alSet s.proms s.nextP (PromState.pending [])
    nextP := s.nextP + 1 }
  let acc := e.2.2.foldl (depSubscribeStep ctx e.1) (0, sa)
  let s1 : ES := { acc.2 with
    invIds := alSet acc.2.invIds e.1 iid
    waitP := alSet acc.2.waitP e.1 acc.1 }
  let s2 := if acc.1 = 0 then proceedR ctx s1 e.1 else s1
  { s2 with promisesM := alSet s2.promisesM e.1 iid }

structure PStore where
  proms : List (Nat × PromState)
  nextP : Nat

def emptyStore : PStore := ⟨[], 1⟩

/-- The synchronous body of the closure returned by `study`
(resolve.ts 402-465, after argument normalisation): set up the resolution
deferred and the mutable context, short-circuit on an already-failed parent,
merge inherited/settled parent values (omitting this mapping's own invocable
keys), copy the parent's promises, then walk the plan, skipping every entry
whose name is a local. -/
def resolveSync (ctx : RCtx) (ps : PStore) : ES :=
  let s0 : ES := {
    proms := alSet ps.proms ps.nextP (PromState.pending [])
    nextP := ps.nextP + 1
    promisesM := []
    invIds := []
    values := alExtend [] ctx.locals
    waitP := []
    wait := 1 + ctx.plan.length
    merged := false
    failure := none
    parentVals := ctx.parent.pvalues
    resValues := none
    resInherited := none
    resPid := ps.nextP
    invoked := []
    queue := [] }
  match ctx.parent.pfailure with
  | some e => failR s0 e
  | none =>
    let s1 : ES := match ctx.parent.pinherited with
      | some ih => { s0 with values := alMergeFill s0.values (alOmit ih ctx.invocableKeys) }
      | none => s0
    let s2 : ES := { s1 with promisesM := alExtend [] ctx.parent.ppromises }
    let s3 : ES := match ctx.parent.pvalues with
      | some pv =>
          doneR { s2 with
            values := alMergeFill s2.values (alOmit pv ctx.invocableKeys)
            merged := true
            resInherited := some (alOmit pv ctx.invocableKeys) }
      | none =>
          subscribe
            (match ctx.parent.pinherited with
             | some ih => { s2 with resInherited := some (alOmit ih ctx.invocableKeys) }
             | none => s2)
            ctx.parent.ppid Cb.parentThen
    ctx.plan.foldl
      (fun st e => if alHas ctx.locals e.1 then doneR st else invokeEntry ctx st e) s3

/-- Reading a finished resolution back as a `parent` argument for a child
resolution: `$$values`, `$$promises`, `$$inheritedValues`, `$$failure` and the
resolution promise. -/
def toParent (s : ES) : ParentRes :=
  ⟨s.resValues, s.promisesM, s.resInherited, s.failure, s.resPid⟩

def toStore (s : ES) : PStore := ⟨s.proms, s.nextP⟩

def studyPlan (m : Mapping) : List PlanEntry :=
  match study m with
  | Except.ok p => p
  | Except.error _ => []

/-- `$resolve.resolve(invocables, locals, parent, self)` =
`study(invocables)(locals, parent, self)`: compile the plan once and execute
it; `invocableKeys = Object.keys(invocables)`. -/
def mkCtx (m : Mapping) (locals : List (K × V)) (parent : ParentRes)
    (services : List (String × V)) : RCtx :=
  ⟨studyPlan m, m.map Prod.fst, locals, parent, services⟩

def resolveRun (ctx : RCtx) (ps : PStore) (fuel : Nat) : ES :=
  runR ctx fuel (resolveSync ctx ps)


/-! ### Machine scenarios and projection lemmas -/

theorem settleProm_invoked (s : ES) (i : Nat) (out : Except Err Payload) :
    (settleProm s i out).invoked = s.invoked := by
  unfold settleProm
  split <;> rfl

theorem settleProm_failure (s : ES) (i : Nat) (out : Except Err Payload) :
    (settleProm s i out).failure = s.failure := by
  unfold settleProm
  split <;> rfl

theorem settleProm_values (s : ES) (i : Nat) (out : Except Err Payload) :
    (settleProm s i out).values = s.values := by
  unfold settleProm
  split <;> rfl

theorem settleProm_resValues (s : ES) (i : Nat) (out : Except Err Payload) :
    (settleProm s i out).resValues = s.resValues := by
  unfold settleProm
  split <;> rfl

theorem failR_invoked (s : ES) (e : Err) : (failR s e).invoked = s.invoked := by
  unfold failR
  rw [settleProm_invoked]

theorem failR_failure (s : ES) (e : Err) : (failR s e).failure = some e := by
  unfold failR
  rw [settleProm_failure]

theorem failR_values (s : ES) (e : Err) : (failR s e).values = s.values := by
  unfold failR
  rw [settleProm_values]

theorem failR_resValues (s : ES) (e : Err) : (failR s e).resValues = s.resValues := by
  unfold failR
  rw [settleProm_resValues]

theorem onfailureR_invoked (s : ES) (key : K) (e : Err) :
    (onfailureR s key e).invoked = s.invoked := by
  unfold onfailureR
  rw [failR_invoked]
  split
  · rw [settleProm_invoked]
  · rfl

theorem onfailureR_failure (s : ES) (key : K) (e : Err) :
    (onfailureR s key e).failure = some e := by
  unfold onfailureR
  rw [failR_failure]

theorem onfailureR_values (s : ES) (key : K) (e : Err) :
    (onfailureR s key e).values = s.values := by
  unfold onfailureR
  rw [failR_values]
  split
  · rw [settleProm_values]
  · rfl

theorem onfailureR_resValues (s : ES) (key : K) (e : Err) :
    (onfailureR s key e).resValues = s.resValues := by
  unfold onfailureR
  rw [failR_resValues]
  split
  · rw [settleProm_resValues]
  · rfl

theorem doneR_invoked (s : ES) : (doneR s).invoked = s.invoked := by
  unfold doneR
  split
  · rw [settleProm_invoked]
  · rfl

theorem doneR_failure (s : ES) : (doneR s).failure = s.failure := by
  unfold doneR
  split
  · rw [settleProm_failure]
  · rfl

/-- `proceed()` checks the failure flag first (resolve.ts 487): a failed
resolution invokes nothing further. -/
theorem proceedR_failed (ctx : RCtx) (s : ES) (key : K) (h : s.failure.isSome) :
    proceedR ctx s key = s := by
  unfold proceedR
  rw [if_pos h]

theorem runCb_failed (ctx : RCtx) (s : ES) (t : Task) (h : s.failure.isSome) :
    (runCb ctx s t).invoked = s.invoked ∧ (runCb ctx s t).failure.isSome := by
  rcases t with ⟨cb, out⟩
  cases cb with
  | depThen k d =>
      cases out with
      | ok p =>
          cases p with
          | val v =>
              simp only [runCb]
              split
              · rw [proceedR_failed ctx { s with
                  values := alSet s.values d v
                  waitP := alSet s.waitP k ((alLookup s.waitP k).getD 0 - 1) } k h]
                exact ⟨rfl, h⟩
              · exact ⟨rfl, h⟩
          | obj m =>
              simp only [runCb]
              split
              · rw [proceedR_failed ctx { s with
                  waitP := alSet s.waitP k ((alLookup s.waitP k).getD 0 - 1) } k h]
                exact ⟨rfl, h⟩
              · exact ⟨rfl, h⟩
      | error e =>
          simp only [runCb]
          refine ⟨onfailureR_invoked s k e, ?_⟩
          rw [onfailureR_failure]
          rfl
  | invThen k =>
      cases out with
      | ok p =>
          cases p with
          | val v =>
              simp only [runCb]
              exact ⟨doneR_invoked _, by rw [doneR_failure]; exact h⟩
          | obj m =>
              simp only [runCb]
              exact ⟨doneR_invoked _, by rw [doneR_failure]; exact h⟩
      | error e =>
          simp only [runCb]
          refine ⟨onfailureR_invoked s k e, ?_⟩
          rw [onfailureR_failure]
          rfl
  | parentThen =>
      cases out with
      | ok p =>
          cases p with
          | val v =>
              simp only [runCb]
              exact ⟨doneR_invoked _, by rw [doneR_failure]; exact h⟩
          | obj m =>
              simp only [runCb]
              exact ⟨doneR_invoked _, by rw [doneR_failure]; exact h⟩
      | error e =>
          simp only [runCb]
          refine ⟨failR_invoked s e, ?_⟩
          rw [failR_failure]
          rfl

theorem failure_freeze_step (ctx : RCtx) (s : ES) (h : s.failure.isSome) :
    (stepR ctx s).invoked = s.invoked ∧ (stepR ctx s).failure.isSome := by
  unfold stepR
  cases hq : s.queue with
  | nil => exact ⟨rfl, h⟩
  | cons t rest => exact runCb_failed ctx { s with queue := rest } t h

theorem failure_freeze_run (ctx : RCtx) : ∀ (n : Nat) (s : ES), s.failure.isSome →
    (runR ctx n s).invoked = s.invoked ∧ (runR ctx n s).failure.isSome := by
  intro n
  induction n with
  | zero => intro s h; exact ⟨rfl, h⟩
  | succ n ihn =>
      intro s h
      have hs := failure_freeze_step ctx s h
      have h2 := ihn (stepR ctx s) hs.2
      exact ⟨h2.1.trans hs.1, h2.2⟩

/-- The C7 scenario: `b` depends on `a` and `a` throws. -/
def abMapping : Mapping :=
  [("a", Invocable.fn [] (fun _ => Except.error "boom")),
   ("b", Invocable.fn ["a"] (fun _ => Except.ok 7))]

def abRun : ES := resolveRun (mkCtx abMapping [] noParent []) emptyStore 20

/-- C7: once an overall resolution has recorded a failure no further plan
entries are invoked: `proceed` checks the failure flag before invoking (first
conjunct), so after a failure the set of invoked entries is frozen under any
number of machine steps (second conjunct); concretely, with invocable `b`
depending on `a` and `a` throwing `"boom"`, the resolution fails with `a`'s
error, its promise is rejected with that error, and `b` is never invoked
(remaining conjuncts). -/
theorem failure_stops_invocations :
    (∀ (ctx : RCtx) (s : ES) (key : K), s.failure.isSome → proceedR ctx s key = s) ∧
    (∀ (ctx : RCtx) (n : Nat) (s : ES), s.failure.isSome →
      (runR ctx n s).invoked = s.invoked ∧ (runR ctx n s).failure.isSome) ∧
    abRun.failure = some "boom" ∧ abRun.invoked = ["a"] ∧ abRun.resValues = none ∧
    alLookup abRun.proms abRun.resPid = some (PromState.rej "boom") :=
  ⟨proceedR_failed, fun ctx n s h => failure_freeze_run ctx n s h, rfl, rfl, rfl, rfl⟩

/-- Witness for C7: the two universally quantified conjuncts applied to the
concrete failed scenario. -/
theorem failure_stops_invocations_witness :
    proceedR (mkCtx abMapping [] noParent []) abRun "b" = abRun ∧
    (runR (mkCtx abMapping [] noParent []) 5 abRun).invoked = abRun.invoked :=
  ⟨failure_stops_invocations.1 (mkCtx abMapping [] noParent []) abRun "b" (by rfl),
   (failure_stops_invocations.2.1 (mkCtx abMapping [] noParent []) 5 abRun (by rfl)).1⟩

/-! ### C6: self-named dependencies -/

/-- A parent resolution that obtained `x = 5` purely from its own locals: it
publishes no promise for `x` (`$$promises` stays empty). -/
def parentLocalsRun : ES := resolveRun (mkCtx [] [("x", 5)] noParent []) emptyStore 10

/-- The child mapping of C6: invocable `x` depends on a parameter also named
`x` (`x ↦ x + 1`, `999` when the dependency arrives `undefined`), and a
sibling `y` depends on `x` (`y ↦ 10·x`, `888` when `undefined`). -/
def childMapping : Mapping :=
  [("x", Invocable.fn ["x"] (fun args => match args with
      | [some v] => Except.ok (v + 1)
      | _ => Except.ok 999)),
   ("y", Invocable.fn ["x"] (fun args => match args with
      | [some v] => Except.ok (v * 10)
      | _ => Except.ok 888))]

def childOfLocalsParent : ES :=
  resolveRun (mkCtx childMapping [] (toParent parentLocalsRun) []) (toStore parentLocalsRun) 20

/-- A parent resolution whose `x` comes from an invocable returning `1`, so a
promise for `x` is published. -/
def parentInvRun : ES :=
  resolveRun (mkCtx [("x", Invocable.fn [] (fun _ => Except.ok 1))] [] noParent []) emptyStore 10

def childOfInvParent : ES :=
  resolveRun (mkCtx childMapping [] (toParent parentInvRun) []) (toStore parentInvRun) 20

/-- C6 counterexample: the parent resolved with `$$values = {x: 5}` (from its
locals).  Were the child's self-named dependency "resolved against the parent
resolution's value of that name", the child's `x` invocable would receive `5`
and produce `6`.  In fact the parent published no promise for `x`, the merged
parent values omit the child's own invocable keys (resolve.ts 451), so the
invocable is called with `x` undefined and produces `999` (and the sibling `y`
sees `9990`). -/
theorem selfdep_parent_locals_counterexample :
    (toParent parentLocalsRun).pvalues = some [("x", 5)] ∧
    (toParent parentLocalsRun).ppromises = [] ∧
    childOfLocalsParent.resValues = some [("x", 999), ("y", 9990)] ∧
    alLookup (childOfLocalsParent.resValues.getD []) "x" ≠ some 6 :=
  ⟨rfl, rfl, rfl, by decide⟩

/-- C6 amended: a self-named dependency is not treated as a cycle (`study`
succeeds on `childMapping`), and it is satisfied from the promise the parent
*published* for that name — here the parent's invocable resolved `x = 1`, the
child's entry `x(x) = x + 1` is invoked with `1` and decorates it to `2`, and
the sibling `y(x) = 10·x` observes the decorated value (`20`), not the
inherited `1`. -/
theorem selfdep_decorates_parent_invocable :
    (∃ p, study childMapping = Except.ok p) ∧
    (toParent parentInvRun).pvalues = some [("x", 1)] ∧
    childOfInvParent.resValues = some [("x", 2), ("y", 20)] :=
  ⟨⟨_, rfl⟩, rfl, rfl⟩

theorem runR_empty_queue (ctx : RCtx) : ∀ (n : Nat) (s : ES), s.queue = [] →
    runR ctx n s = s := by
  intro n
  induction n with
  | zero => intro s _; rfl
  | succ n ihn =>
      intro s h
      have hstep : stepR ctx s = s := by
        unfold stepR
        rw [h]
      show runR ctx n (stepR ctx s) = s
      rw [hstep]
      exact ihn s h

/-- C8: a resolution whose parent has already failed fails immediately with
the same cause (resolve.ts 438-441): `$$failure` is set to the parent's
failure, nothing is ever invoked, no work is scheduled (so the state is inert
under any number of machine steps), and the resolution promise is rejected
with the same cause. -/
theorem parent_failure_short_circuit (ctx : RCtx) (ps : PStore) (e : Err) (n : Nat)
    (hpf : ctx.parent.pfailure = some e) :
    (resolveSync ctx ps).failure = some e ∧
    (resolveSync ctx ps).invoked = [] ∧
    (resolveSync ctx ps).queue = [] ∧
    alLookup (resolveSync ctx ps).proms (resolveSync ctx ps).resPid =
      some (PromState.rej e) ∧
    runR ctx n (resolveSync ctx ps) = resolveSync ctx ps := by
  have hq : (resolveSync ctx ps).queue = [] := by
    simp only [resolveSync, hpf]
    unfold failR settleProm
    simp [alLookup_set_self]
  refine ⟨?_, ?_, hq, ?_, runR_empty_queue ctx n _ hq⟩
  · simp only [resolveSync, hpf]
    rw [failR_failure]
  · simp only [resolveSync, hpf]
    rw [failR_invoked]
  · simp only [resolveSync, hpf]
    unfold failR settleProm
    simp [alLookup_set_self]

/-- Witness for C8: a concrete resolution over a failed parent. -/
theorem parent_failure_short_circuit_witness :
    (resolveSync (mkCtx abMapping [("z", 3)] ⟨none, [], none, some "down", 0⟩ []) emptyStore).failure
      = some "down" ∧
    (resolveSync (mkCtx abMapping [("z", 3)] ⟨none, [], none, some "down", 0⟩ []) emptyStore).invoked
      = [] :=
  ⟨(parent_failure_short_circuit (mkCtx abMapping [("z", 3)] ⟨none, [], none, some "down", 0⟩ [])
      emptyStore "down" 3 rfl).1,
   (parent_failure_short_circuit (mkCtx abMapping [("z", 3)] ⟨none, [], none, some "down", 0⟩ [])
      emptyStore "down" 3 rfl).2.1⟩

/-! ### C10: argument shifting of the returned resolve closure -/

/-- The dynamic arguments of the returned `resolve(locals, parent, self)`
closure. -/
inductive RArg where
  | undef
  | nullv
  | res (p : ParentRes)
  | obj (m : List (K × V))
  | num (v : V)

/-- `isResolve(value)` (resolve.ts 398-400): `isObject(value) && value.then &&
value.$$promises` — exactly the results this engine produces (their
`$$promises` field is kept truthy even after settling, resolve.ts 426). -/
def isResolve : RArg → Bool
  | RArg.res _ => true
  | _ => false

def isUndefArg : RArg → Bool
  | RArg.undef => true
  | _ => false

/-- JavaScript truthiness of an argument (`!locals` / `!parent`). -/
def argTruthy : RArg → Bool
  | RArg.undef => false
  | RArg.nullv => false
  | RArg.res _ => true
  | RArg.obj _ => true
  | RArg.num v => v != 0

def isObjectArg : RArg → Bool
  | RArg.res _ => true
  | RArg.obj _ => true
  | _ => false

/-- The ordinary own properties of an argument used as a locals object (a
resolution result carries only internal fields). -/
def localsView : RArg → List (K × V)
  | RArg.obj m => m
  | _ => []

/-- Defaulting and validation of `parent` (resolve.ts 409-410). -/
def normParent (l : List (K × V)) (p sf : RArg) :
    Except Err (List (K × V) × ParentRes × RArg) :=
  if !argTruthy p then Except.ok (l, noParent, sf)
  else match p with
    | RArg.res pr => Except.ok (l, pr, sf)
    | _ => Except.error "parent must be a promise returned by resolve"

/-- Defaulting and validation of `locals` (resolve.ts 406-407). -/
def normTail (l p sf : RArg) : Except Err (List (K × V) × ParentRes × RArg) :=
  if !argTruthy l then normParent [] p sf
  else if !isObjectArg l then Except.error "locals must be an object"
  else normParent (localsView l) p sf

/-- Argument normalisation of the closure returned by `study`
(resolve.ts 402-410): `if (isResolve(locals) && self === undefined) { self =
parent; parent = locals; locals = null; }`, then defaulting and validation of
`locals` and `parent`. -/
def normalizeArgs (locals parent self : RArg) :
    Except Err (List (K × V) × ParentRes × RArg) :=
  if isResolve locals && isUndefArg self then normTail RArg.nullv locals parent
  else normTail locals parent self

/-- C10: when the first argument is itself a resolution result (an object with
a `then` method and the `$$promises` marker) and the third argument is
`undefined`, the closure reinterprets its arguments: the first argument is
used as the parent, the second as `self`, and the locals are treated as
empty. -/
theorem resolve_args_shift (pr : ParentRes) (b : RArg) :
    normalizeArgs (RArg.res pr) b RArg.undef = Except.ok ([], pr, b) := rfl

/-! ### C9: locals shadow same-named invocables -/

theorem alLookup_extend {κ α : Type} [DecidableEq κ] :
    ∀ (src : List (κ × α)) (dst : List (κ × α)) (k : κ), (src.map Prod.fst).Nodup →
      alLookup (alExtend dst src) k =
        (match alLookup src k with
         | some v => some v
         | none => alLookup dst k)
  | [], dst, k, _ => by simp [alExtend, alLookup]
  | kv :: rest, dst, k, hnd => by
      have hstep : alExtend dst (kv :: rest) = alExtend (alSet dst kv.1 kv.2) rest := rfl
      rw [hstep, alLookup_extend rest (alSet dst kv.1 kv.2) k (List.nodup_cons.mp hnd).2]
      by_cases hk : kv.1 = k
      · subst hk
        have hrest : alLookup rest kv.1 = none := by
          cases hr : alLookup rest kv.1 with
          | none => rfl
          | some v =>
              exact absurd (alLookup_mem_keys rest kv.1 v hr) (List.nodup_cons.mp hnd).1
        rw [hrest, alLookup_set_self]
        simp [alLookup]
      · rw [alLookup_set_ne dst kv.1 k kv.2 (Ne.symm hk)]
        simp [alLookup, hk]

/-- Which callbacks never touch the name `x`: used to show that a name present
in `locals` is never written or invoked. -/
def cbAvoids (x : K) : Cb → Prop
  | Cb.depThen k d => k ≠ x ∧ d ≠ x
  | Cb.invThen k => k ≠ x
  | Cb.parentThen => True

/-- Machine invariant for a name `x` owned by `locals`: no scheduled or
registered callback mentions `x`, the current `values` entry for `x` is the
local value, `x` was never invoked, and a published `$$values` carries the
local value for `x`. -/
structure LocalsInv (ctx : RCtx) (x : K) (s : ES) : Prop where
  qAvoid : ∀ t ∈ s.queue, cbAvoids x t.1
  pAvoid : ∀ i subs, alLookup s.proms i = some (PromState.pending subs) →
    ∀ cb ∈ subs, cbAvoids x cb
  vx : alLookup s.values x = alLookup ctx.locals x
  ninv : x ∉ s.invoked
  rx : ∀ m, s.resValues = some m → alLookup m x = alLookup ctx.locals x

theorem schedule_inv (ctx : RCtx) (x : K) (s : ES) (t : Task) (ht : cbAvoids x t.1)
    (h : LocalsInv ctx x s) : LocalsInv ctx x (schedule s t) := by
  refine ⟨?_, h.pAvoid, h.vx, h.ninv, h.rx⟩
  intro u hu
  rcases List.mem_append.mp hu with hu | hu
  · exact h.qAvoid u hu
  · rw [List.mem_singleton.mp hu]
    exact ht

theorem subscribe_inv (ctx : RCtx) (x : K) (s : ES) (i : Nat) (cb : Cb)
    (hcb : cbAvoids x cb) (h : LocalsInv ctx x s) : LocalsInv ctx x (subscribe s i cb) := by
  unfold subscribe
  cases hpr : alLookup s.proms i with
  | none => exact h
  | some st =>
      cases st with
      | pending subs =>
          refine ⟨h.qAvoid, ?_, h.vx, h.ninv, h.rx⟩
          intro j sj hj cb2 hcb2
          by_cases hij : j = i
          · subst hij
            rw [alLookup_set_self] at hj
            injection hj with hj2
            injection hj2 with hj3
            rw [← hj3] at hcb2
            rcases List.mem_append.mp hcb2 with hc | hc
            · exact h.pAvoid j subs hpr cb2 hc
            · rw [List.mem_singleton.mp hc]
              exact hcb
          · rw [alLookup_set_ne _ _ _ _ hij] at hj
            exact h.pAvoid j sj hj cb2 hcb2
      | res p => exact schedule_inv ctx x s (cb, Except.ok p) hcb h
      | rej e => exact schedule_inv ctx x s (cb, Except.error e) hcb h

theorem settleProm_inv (ctx : RCtx) (x : K) (s : ES) (i : Nat) (out : Except Err Payload)
    (h : LocalsInv ctx x s) : LocalsInv ctx x (settleProm s i out) := by
  unfold settleProm
  cases hpr : alLookup s.proms i with
  | none => exact h
  | some st =>
      cases st with
      | pending subs =>
          refine ⟨?_, ?_, h.vx, h.ninv, h.rx⟩
          · intro t ht
            rcases List.mem_append.mp ht with ht | ht
            · exact h.qAvoid t ht
            · rcases List.mem_map.mp ht with ⟨cb, hcb, rfl⟩
              exact h.pAvoid i subs hpr cb hcb
          · intro j sj hj cb2 hcb2
            by_cases hij : j = i
            · subst hij
              rw [alLookup_set_self] at hj
              cases out with
              | ok p => simp at hj
              | error e => simp at hj
            · rw [alLookup_set_ne _ _ _ _ hij] at hj
              exact h.pAvoid j sj hj cb2 hcb2
      | res p => exact h
      | rej e => exact h

theorem failR_inv (ctx : RCtx) (x : K) (s : ES) (e : Err) (h : LocalsInv ctx x s) :
    LocalsInv ctx x (failR s e) := by
  unfold failR
  exact settleProm_inv ctx x { s with failure := some e } s.resPid (Except.error e)
    ⟨h.qAvoid, h.pAvoid, h.vx, h.ninv, h.rx⟩

theorem onfailureR_inv (ctx : RCtx) (x : K) (s : ES) (key : K) (e : Err)
    (h : LocalsInv ctx x s) : LocalsInv ctx x (onfailureR s key e) := by
  unfold onfailureR
  cases hiid : alLookup s.invIds key with
  | some iid => exact failR_inv ctx x _ e (settleProm_inv ctx x s iid (Except.error e) h)
  | none => exact failR_inv ctx x s e h

theorem doneR_inv (ctx : RCtx) (x : K) (s : ES) (hx : (alLookup ctx.locals x).isSome)
    (h : LocalsInv ctx x s) : LocalsInv ctx x (doneR s) := by
  unfold doneR
  split
  · have hvx : alLookup (if s.merged then s.values
        else alMergeFill s.values (s.parentVals.getD [])) x = alLookup ctx.locals x := by
      by_cases hm : s.merged
      · rw [if_pos hm]
        exact h.vx
      · rw [if_neg hm]
        rw [alLookup_mergeFill_present _ _ _ (by rw [h.vx]; exact hx)]
        exact h.vx
    refine settleProm_inv ctx x _ _ _ ⟨h.qAvoid, h.pAvoid, hvx, h.ninv, ?_⟩
    intro m hm2
    rw [← Option.some.inj hm2]
    exact hvx
  · exact ⟨h.qAvoid, h.pAvoid, h.vx, h.ninv, h.rx⟩

theorem proceedR_inv (ctx : RCtx) (x : K) (s : ES) (k : K) (hk : k ≠ x)
    (h : LocalsInv ctx x s) : LocalsInv ctx x (proceedR ctx s k) := by
  unfold proceedR
  split
  · exact h
  · split
    · rename_i e iid hq1 hq2
      have h2 : LocalsInv ctx x { s with invoked := s.invoked ++ [k] } := by
        refine ⟨h.qAvoid, h.pAvoid, h.vx, ?_, h.rx⟩
        intro hmem
        rcases List.mem_append.mp hmem with hm | hm
        · exact h.ninv hm
        · exact hk (List.mem_singleton.mp hm).symm
      cases hinv2 : invokeInv ctx s e.2.1 with
      | ok v =>
          exact subscribe_inv ctx x _ iid (Cb.invThen k) hk
            (settleProm_inv ctx x _ iid (Except.ok (Payload.val v)) h2)
      | error err => exact onfailureR_inv ctx x _ k err h2
    · exact h

theorem stepR_inv (ctx : RCtx) (x : K) (s : ES) (hx : (alLookup ctx.locals x).isSome)
    (h : LocalsInv ctx x s) : LocalsInv ctx x (stepR ctx s) := by
  unfold stepR
  cases hq : s.queue with
  | nil => exact h
  | cons t rest =>
      have hrest : LocalsInv ctx x { s with queue := rest } :=
        ⟨fun u hu => h.qAvoid u (by rw [hq]; exact List.mem_cons_of_mem t hu),
         h.pAvoid, h.vx, h.ninv, h.rx⟩
      have htc : cbAvoids x t.1 := h.qAvoid t (by rw [hq]; exact List.mem_cons_self t rest)
      rcases t with ⟨cb, out⟩
      cases cb with
      | depThen k d =>
          obtain ⟨hk, hd⟩ := htc
          cases out with
          | ok p =>
              cases p with
              | val v =>
                  simp only [runCb]
                  have h2 : LocalsInv ctx x { s with
                      queue := rest
                      values := alSet s.values d v
                      waitP := alSet s.waitP k ((alLookup s.waitP k).getD 0 - 1) } := by
                    refine ⟨hrest.qAvoid, hrest.pAvoid, ?_, hrest.ninv, hrest.rx⟩
                    rw [alLookup_set_ne s.values d x v (Ne.symm hd)]
                    exact h.vx
                  split
                  · exact proceedR_inv ctx x _ k hk h2
                  · exact h2
              | obj m =>
                  simp only [runCb]
                  have h2 : LocalsInv ctx x { s with
                      queue := rest
                      waitP := alSet s.waitP k ((alLookup s.waitP k).getD 0 - 1) } :=
                    ⟨hrest.qAvoid, hrest.pAvoid, hrest.vx, hrest.ninv, hrest.rx⟩
                  split
                  · exact proceedR_inv ctx x _ k hk h2
                  · exact h2
          | error e => exact onfailureR_inv ctx x _ k e hrest
      | invThen k =>
          cases out with
          | ok p =>
              cases p with
              | val v =>
                  simp only [runCb]
                  refine doneR_inv ctx x _ hx
                    ⟨hrest.qAvoid, hrest.pAvoid, ?_, hrest.ninv, hrest.rx⟩
                  rw [alLookup_set_ne s.values k x v (Ne.symm htc)]
                  exact h.vx
              | obj m =>
                  simp only [runCb]
                  exact doneR_inv ctx x _ hx hrest
          | error e => exact onfailureR_inv ctx x _ k e hrest
      | parentThen =>
          cases out with
          | ok p =>
              cases p with
              | val v =>
                  simp only [runCb]
                  exact doneR_inv ctx x _ hx hrest
              | obj m =>
                  simp only [runCb]
                  exact doneR_inv ctx x _ hx
                    ⟨hrest.qAvoid, hrest.pAvoid, hrest.vx, hrest.ninv, hrest.rx⟩
          | error e => exact failR_inv ctx x _ e hrest

theorem runR_inv (ctx : RCtx) (x : K) (hx : (alLookup ctx.locals x).isSome) :
    ∀ (n : Nat) (s : ES), LocalsInv ctx x s → LocalsInv ctx x (runR ctx n s) := by
  intro n
  induction n with
  | zero => intro s h; exact h
  | succ n ihn =>
      intro s h
      exact ihn (stepR ctx s) (stepR_inv ctx x s hx h)

theorem invokeEntry_inv (ctx : RCtx) (x : K) (s : ES) (e : PlanEntry)
    (hx : (alLookup ctx.locals x).isSome) (hk : e.1 ≠ x)
    (h : LocalsInv ctx x s) : LocalsInv ctx x (invokeEntry ctx s e) := by
  have hsa : LocalsInv ctx x { s with
      proms := alSet s.proms s.nextP (PromState.pending [])
      nextP := s.nextP + 1 } := by
    refine ⟨h.qAvoid, ?_, h.vx, h.ninv, h.rx⟩
    intro j sj hj cb hcb
    by_cases hji : j = s.nextP
    · subst hji
      rw [alLookup_set_self] at hj
      injection hj with hj2
      injection hj2 with hj3
      rw [← hj3] at hcb
      cases hcb
    · rw [alLookup_set_ne _ _ _ _ hji] at hj
      exact h.pAvoid j sj hj cb hcb
  have hfold : ∀ (deps : List K) (acc : Nat × ES), LocalsInv ctx x acc.2 →
      LocalsInv ctx x (deps.foldl (depSubscribeStep ctx e.1) acc).2 := by
    intro deps
    induction deps with
    | nil => intro acc h0; exact h0
    | cons dep rest ihd =>
        intro acc h0
        rw [List.foldl_cons]
        apply ihd
        unfold depSubscribeStep
        by_cases hg : (alHas acc.2.promisesM dep && !(alHas ctx.locals dep)) = true
        · rw [if_pos hg]
          have hdep : dep ≠ x := by
            intro he
            rw [Bool.and_eq_true] at hg
            have hg2 := hg.2
            rw [he] at hg2
            rw [show alHas ctx.locals x = true from hx] at hg2
            simp at hg2
          exact subscribe_inv ctx x acc.2 _ _ ⟨hk, hdep⟩ h0
        · rw [if_neg hg]
          exact h0
  unfold invokeEntry
  have hinner : ∀ (s2 : ES), LocalsInv ctx x s2 →
      LocalsInv ctx x { s2 with promisesM := alSet s2.promisesM e.1 s.nextP } :=
    fun s2 h2 => ⟨h2.qAvoid, h2.pAvoid, h2.vx, h2.ninv, h2.rx⟩
  apply hinner
  split
  · apply proceedR_inv ctx x _ e.1 hk
    exact ⟨(hfold e.2.2 _ hsa).qAvoid, (hfold e.2.2 _ hsa).pAvoid, (hfold e.2.2 _ hsa).vx,
      (hfold e.2.2 _ hsa).ninv, (hfold e.2.2 _ hsa).rx⟩
  · exact ⟨(hfold e.2.2 _ hsa).qAvoid, (hfold e.2.2 _ hsa).pAvoid, (hfold e.2.2 _ hsa).vx,
      (hfold e.2.2 _ hsa).ninv, (hfold e.2.2 _ hsa).rx⟩

theorem resolveSync_inv (ctx : RCtx) (x : K) (ps : PStore)
    (hx : (alLookup ctx.locals x).isSome)
    (hnd : (ctx.locals.map Prod.fst).Nodup)
    (hps : ∀ i subs, alLookup ps.proms i = some (PromState.pending subs) →
      ∀ cb ∈ subs, cbAvoids x cb) :
    LocalsInv ctx x (resolveSync ctx ps) := by
  have hvx0 : alLookup (alExtend [] ctx.locals) x = alLookup ctx.locals x := by
    rw [alLookup_extend ctx.locals [] x hnd]
    cases alLookup ctx.locals x with
    | none => simp [alLookup]
    | some v => rfl
  have hloop : ∀ (pl : List PlanEntry) (st : ES), LocalsInv ctx x st →
      LocalsInv ctx x (pl.foldl
        (fun st e => if alHas ctx.locals e.1 then doneR st else invokeEntry ctx st e) st) := by
    intro pl
    induction pl with
    | nil => intro st h1; exact h1
    | cons e rest ihl =>
        intro st h1
        rw [List.foldl_cons]
        apply ihl
        by_cases hg : alHas ctx.locals e.1 = true
        · rw [if_pos hg]
          exact doneR_inv ctx x st hx h1
        · rw [if_neg hg]
          have hk : e.1 ≠ x := by
            intro he
            rw [he] at hg
            exact hg hx
          exact invokeEntry_inv ctx x st e hx hk h1
  have hpr0 : ∀ j sj, alLookup (alSet ps.proms ps.nextP (PromState.pending [])) j =
      some (PromState.pending sj) → ∀ cb ∈ sj, cbAvoids x cb := by
    intro j sj hj cb hcb
    by_cases hji : j = ps.nextP
    · subst hji
      rw [alLookup_set_self] at hj
      injection hj with hj2
      injection hj2 with hj3
      rw [← hj3] at hcb
      cases hcb
    · rw [alLookup_set_ne _ _ _ _ hji] at hj
      exact hps j sj hj cb hcb
  have h2base : ∀ (pm : List (K × Nat)) (vals : List (K × V)) (ri pvals : Option (List (K × V))),
      alLookup vals x = alLookup ctx.locals x →
      LocalsInv ctx x { proms := alSet ps.proms ps.nextP (PromState.pending [])
                        nextP := ps.nextP + 1
                        promisesM := pm
                        invIds := []
                        values := vals
                        waitP := []
                        wait := 1 + ctx.plan.length
                        merged := false
                        failure := none
                        parentVals := pvals
                        resValues := none
                        resInherited := ri
                        resPid := ps.nextP
                        invoked := []
                        queue := [] } := by
    intro pm vals ri pvals hv
    exact ⟨fun t ht => absurd ht (List.not_mem_nil t), hpr0, hv,
      fun hm => absurd hm (List.not_mem_nil x), fun m hm => Option.noConfusion hm⟩
  have h2merged : ∀ (pm : List (K × Nat)) (vals : List (K × V)) (ri pvals : Option (List (K × V))),
      alLookup vals x = alLookup ctx.locals x →
      LocalsInv ctx x { proms := alSet ps.proms ps.nextP (PromState.pending [])
                        nextP := ps.nextP + 1
                        promisesM := pm
                        invIds := []
                        values := vals
                        waitP := []
                        wait := 1 + ctx.plan.length
                        merged := true
                        failure := none
                        parentVals := pvals
                        resValues := none
                        resInherited := ri
                        resPid := ps.nextP
                        invoked := []
                        queue := [] } := by
    intro pm vals ri pvals hv
    exact ⟨fun t ht => absurd ht (List.not_mem_nil t), hpr0, hv,
      fun hm => absurd hm (List.not_mem_nil x), fun m hm => Option.noConfusion hm⟩
  have hmerge1 : ∀ (src : List (K × V)) (vals : List (K × V)),
      alLookup vals x = alLookup ctx.locals x →
      alLookup (alMergeFill vals src) x = alLookup ctx.locals x := by
    intro src vals hv
    rw [alLookup_mergeFill_present src vals x (by rw [hv]; exact hx)]
    exact hv
  simp only [resolveSync]
  cases hpf : ctx.parent.pfailure with
  | some e =>
      apply failR_inv
      exact h2base [] (alExtend [] ctx.locals) none ctx.parent.pvalues hvx0
  | none =>
      cases hpi : ctx.parent.pinherited with
      | some ih =>
          cases hpv : ctx.parent.pvalues with
          | some pv =>
              apply hloop
              apply doneR_inv ctx x _ hx
              exact h2merged (alExtend [] ctx.parent.ppromises)
                (alMergeFill (alMergeFill (alExtend [] ctx.locals)
                  (alOmit ih ctx.invocableKeys)) (alOmit pv ctx.invocableKeys))
                (some (alOmit pv ctx.invocableKeys)) (some pv)
                (hmerge1 _ _ (hmerge1 _ _ hvx0))
          | none =>
              apply hloop
              apply subscribe_inv ctx x _ ctx.parent.ppid Cb.parentThen trivial
              exact h2base (alExtend [] ctx.parent.ppromises)
                (alMergeFill (alExtend [] ctx.locals) (alOmit ih ctx.invocableKeys))
                (some (alOmit ih ctx.invocableKeys)) none
                (hmerge1 _ _ hvx0)
      | none =>
          cases hpv : ctx.parent.pvalues with
          | some pv =>
              apply hloop
              apply doneR_inv ctx x _ hx
              exact h2merged (alExtend [] ctx.parent.ppromises)
                (alMergeFill (alExtend [] ctx.locals) (alOmit pv ctx.invocableKeys))
                (some (alOmit pv ctx.invocableKeys)) (some pv)
                (hmerge1 _ _ hvx0)
          | none =>
              apply hloop
              apply subscribe_inv ctx x _ ctx.parent.ppid Cb.parentThen trivial
              exact h2base (alExtend [] ctx.parent.ppromises) (alExtend [] ctx.locals)
                none none hvx0

/-- C9: a name owned by `locals` shadows a same-named invocable completely:
for every resolution (any plan, parent, store and fuel) where `locals` binds
`x` and the plan contains an entry named `x`, the entry `x` is never invoked,
the running `values` entry for `x` stays the local value, and the published
`$$values` (if the resolution settles) carries the local value for `x`.  (The
plan-membership hypothesis only scopes the claim: the proof shows the locals
check skips the entry regardless.) -/
theorem locals_shadow_invocable (ctx : RCtx) (ps : PStore) (x : K) (n : Nat)
    (hx : (alLookup ctx.locals x).isSome)
    (hnd : (ctx.locals.map Prod.fst).Nodup)
    (hplan : x ∈ planKeys ctx.plan)
    (hps : ∀ i subs, alLookup ps.proms i = some (PromState.pending subs) →
      ∀ cb ∈ subs, cbAvoids x cb) :
    x ∉ (resolveRun ctx ps n).invoked ∧
    alLookup (resolveRun ctx ps n).values x = alLookup ctx.locals x ∧
    (∀ m, (resolveRun ctx ps n).resValues = some m →
      alLookup m x = alLookup ctx.locals x) := by
  have h := runR_inv ctx x hx n (resolveSync ctx ps) (resolveSync_inv ctx x ps hx hnd hps)
  exact ⟨h.ninv, h.vx, h.rx⟩

/-- The C9 scenario: `locals = {x: 5}` and an invocable also named `x`. -/
def localsSkipCtx : RCtx :=
  mkCtx [("x", Invocable.fn [] (fun _ => Except.ok 42))] [("x", 5)] noParent []

/-- Witness for C9: in the concrete scenario the invocable `x` is never
invoked and the merged result's `x` is the local `5`. -/
theorem locals_shadow_invocable_witness :
    (resolveRun localsSkipCtx emptyStore 20).resValues = some [("x", 5)] ∧
    ("x" ∉ (resolveRun localsSkipCtx emptyStore 20).invoked ∧
     alLookup (resolveRun localsSkipCtx emptyStore 20).values "x" =
       alLookup localsSkipCtx.locals "x" ∧
     (∀ m, (resolveRun localsSkipCtx emptyStore 20).resValues = some m →
       alLookup m "x" = alLookup localsSkipCtx.locals "x")) :=
  ⟨rfl, locals_shadow_invocable localsSkipCtx emptyStore "x" 20 (by rfl) (by decide)
    (by decide) (by intro i subs hsub; simp [emptyStore, alLookup] at hsub)⟩

/-! ## Resolvable (resolve.ts 23-95): claims C2 and C5 -/

/-- The fields of a `Resolvable` relevant here: the memoized promise slot
(`promise`, an id into a promise store; `none` = `undefined`) and the `data`
slot. -/
structure ResolvableR where
  name : String
  deps : List String
  promise : Option Nat
  data : Option V

/-- State threaded through `get`/`resolveResolvable`: the resolvable, a fresh
promise-id counter, and ghost instrumentation counting how many times the
`resolveResolvable` chain (which invokes `resolveFn` once per set-up, when its
dependencies settle) has been started. -/
structure RRState where
  r : ResolvableR
  nextP : Nat
  chainsStarted : Nat

/-- The synchronous prefix of `Resolvable.resolveResolvable`
(resolve.ts 50-55 and 71-82): create a fresh deferred and store its promise
(id `nextP`) in `this.promise` *before* any asynchronous work; the method's
return value is the distinct chain promise
`$q.all(depPromises).then(...).then(...)` (id `nextP + 1`); the set-up of the
dependency-then-invoke chain is counted by the ghost field. -/
def resolveResolvableStart (s : RRState) : Nat × RRState :=
  (s.nextP + 1, ⟨{ s.r with promise := some s.nextP }, s.nextP + 2, s.chainsStarted + 1⟩)

/-- `Resolvable.get` (resolve.ts 85-87):
`return this.promise || this.resolveResolvable(pathContext, options)`;
`this.promise` is an object, hence truthy whenever defined. -/
def get (s : RRState) : Nat × RRState :=
  match s.r.promise with
  | some pid => (pid, s)
  | none => resolveResolvableStart s

/-- C5: `get` is single-flight memoization.  First conjunct: whenever the
promise slot is already populated, `get` returns the stored promise and
changes nothing (in particular `resolveResolvable`, hence `resolveFn`, is not
re-run).  Second conjunct: on a fresh Resolvable the first `get` creates the
promise via `resolveResolvable` — whose synchronous prefix populates the slot
before returning — and starts exactly one invocation chain; every subsequent
`get` then returns that same already-created promise with the state (and the
chain count) untouched, so the underlying `resolveFn` is invoked at most
once. -/
theorem get_memoizes :
    (∀ (s : RRState) (pid : Nat), s.r.promise = some pid → get s = (pid, s)) ∧
    (∀ s : RRState, s.r.promise = none →
      (get s).2.r.promise.isSome ∧
      (get s).2.chainsStarted = s.chainsStarted + 1 ∧
      get (get s).2 = ((get s).2.r.promise.getD 0, (get s).2) ∧
      (get (get s).2).2.chainsStarted = s.chainsStarted + 1) := by
  constructor
  · intro s pid h
    simp [get, h]
  · intro s h
    simp [get, h, resolveResolvableStart]

def freshResolvable : RRState := ⟨⟨"r0", [], none, none⟩, 1, 0⟩

/-- Witness for C5: both parts at concrete states. -/
theorem get_memoizes_witness :
    get (get freshResolvable).2 =
      ((get freshResolvable).2.r.promise.getD 0, (get freshResolvable).2) ∧
    get ⟨⟨"r0", [], some 7, none⟩, 9, 1⟩ = (7, ⟨⟨"r0", [], some 7, none⟩, 9, 1⟩) :=
  ⟨(get_memoizes.2 freshResolvable rfl).2.2.1,
   get_memoizes.1 ⟨⟨"r0", [], some 7, none⟩, 9, 1⟩ 7 rfl⟩

/-! ### C2: the `data` slot is never written (resolve.ts 71-83) -/

/-- How a JavaScript callback binds `this`: an arrow function captures the
enclosing method's `this` (the Resolvable); a plain `function (...) {...}`
expression is called by $q with no receiver, so in the emitted (non-strict)
code its `this` is the global object. -/
inductive JsCallback where
  | arrow
  | plain

def callbackThisIsResolvable : JsCallback → Bool
  | JsCallback.arrow => true
  | JsCallback.plain => false

/-- The first continuation of the chain (resolve.ts 71) is the arrow
`locals => {...}`. -/
def firstThenCallback : JsCallback := JsCallback.arrow

/-- The second continuation (resolve.ts 79) is the plain expression
`function (data) { this.data = data; return this.promise; }`. -/
def secondThenCallback : JsCallback := JsCallback.plain

/-- The receiver of stray `this.data` writes in non-strict code. -/
structure GlobalObj where
  data : Option V

/-- The success path of `resolveResolvable`'s chain after the dependencies
settled and `$injector.invoke` returned `v` (resolve.ts 71-82):
`deferred.resolve(v)` settles the Resolvable's promise with `v`, and the
second `.then` callback then executes `this.data = data` — on whatever object
its `this` designates. -/
def resolveResolvableSuccess (r : ResolvableR) (g : GlobalObj) (v : V) :
    ResolvableR × GlobalObj :=
  if callbackThisIsResolvable secondThenCallback then
    ({ r with data := some v }, g)
  else
    (r, { g with data := some v })

/-- C2 (code bug): the second `.then` callback of `resolveResolvable` is a
plain `function (data)` (resolve.ts 79), so its `this` is not the Resolvable:
after a successful resolution the Resolvable is unchanged — its `data` slot
still `undefined` — and the unwrapped value lands on the callback receiver
instead, contradicting the method's own contract comment "store unwrapped
data" (resolve.ts 48).  Concretely, with resolveFn returning `42` the
resolvable's `data` stays `none` rather than `some 42`. -/
theorem data_slot_never_written :
    (∀ (r : ResolvableR) (g : GlobalObj) (v : V),
      (resolveResolvableSuccess r g v).1 = r ∧
      (resolveResolvableSuccess r g v).2.data = some v) ∧
    (resolveResolvableSuccess ⟨"r0", [], some 1, none⟩ ⟨none⟩ 42).1.data = none ∧
    (resolveResolvableSuccess ⟨"r0", [], some 1, none⟩ ⟨none⟩ 42).1.data ≠ some 42 :=
  ⟨fun r g v => ⟨rfl, rfl⟩, rfl, by decide⟩

/-! ## PathElement.invokeNow (resolve.ts 165-195) and Path.getResolvables
(resolve.ts 261-269): claim C1 -/

structure PathElem where
  stateName : String
  resolvables : List (K × ResolvableR)

abbrev PathM := List PathElem

/-- `Path.getResolvables(options)` (resolve.ts 261-269): reduce the elements
root-to-leaf with `extend` — a deeper element overwrites a same-named entry of
an ancestor — applying `omit(..., options.omitOwnLocals)` only to the last
element (identified by its position). -/
def getResolvablesAux (omitOwn : List K) :
    List (K × ResolvableR) → PathM → List (K × ResolvableR)
  | memo, [] => memo
  | memo, [pe] => alExtend memo (alOmit pe.resolvables omitOwn)
  | memo, pe :: rest => getResolvablesAux omitOwn (alExtend memo pe.resolvables) rest

def getResolvables (p : PathM) (omitOwn : List K) : List (K × ResolvableR) :=
  getResolvablesAux omitOwn [] p

/-- `Path.pathFromRoot(toPathElement)` (resolve.ts 276-280): the sub-path up
to and including the given element, identified here by its position. -/
def pathFromRoot (p : PathM) (i : Nat) : PathM := p.take (i + 1)

/-- The injection object built by `PathElement.invokeNow(fn, locals, path)`
(resolve.ts 186-194) for the element at position `i`:
`deps = $injector.annotate(fn)`;
`resolvables = pick(path.pathFromRoot(this).getResolvables(), deps)`
(`getResolvables()` without options, so nothing is omitted);
`moreLocals = map(resolvables, r => r.data)`;
`combinedLocals = extend({}, locals, moreLocals)`.
`$injector.invoke(fn, this.state, combinedLocals)` then receives, for each
declared parameter, the property of this object of that name; a property can
hold `undefined` (`none`) when the picked resolvable's data slot is unset. -/
def invokeNowCombinedLocals (p : PathM) (i : Nat) (fnParams : List K)
    (locals : List (K × V)) : List (K × Option V) :=
  alExtend (alExtend [] (locals.map (fun kv => (kv.1, some kv.2))))
    ((alPick (getResolvables (pathFromRoot p i) []) fnParams).map
      (fun kv => (kv.1, kv.2.data)))

/-- The C1 counterexample path: one element with a resolvable `x` holding
resolved data `2`. -/
def cexPath : PathM := [⟨"root", [("x", ⟨"x", [], some 3, some 2⟩)]⟩]

/-- C1 counterexample: `combinedLocals = extend({}, locals, moreLocals)`
(resolve.ts 193) makes the gathered resolved values overwrite the
caller-supplied locals on a name collision — with locals `{x: 1}` and an
in-scope resolvable `x` whose data is `2`, the value passed to `fn` for `x`
is the resolved `2`, not the local `1` the claim promises. -/
theorem invokeNow_locals_lose_counterexample :
    alLookup (invokeNowCombinedLocals cexPath 0 ["x"] [("x", 1)]) "x" = some (some 2) ∧
    alLookup (invokeNowCombinedLocals cexPath 0 ["x"] [("x", 1)]) "x" ≠ some (some 1) :=
  ⟨rfl, by decide⟩

theorem alLookup_none_not_mem {κ α : Type} [DecidableEq κ] :
    ∀ (m : List (κ × α)) (k : κ), alLookup m k = none → k ∉ m.map Prod.fst
  | [], k, _ => List.not_mem_nil k
  | kv :: m, k, h => by
      simp only [alLookup] at h
      by_cases he : kv.1 = k
      · rw [if_pos he] at h
        cases h
      · rw [if_neg he] at h
        simp only [List.map_cons, List.mem_cons]
        intro hmem
        rcases hmem with hk | hk
        · exact he hk.symm
        · exact alLookup_none_not_mem m k h hk

theorem alSet_map_fst {κ α : Type} [DecidableEq κ] :
    ∀ (m : List (κ × α)) (k : κ) (v : α),
      (alSet m k v).map Prod.fst =
        if alHas m k then m.map Prod.fst else m.map Prod.fst ++ [k]
  | [], k, v => by simp [alSet, alHas, alLookup]
  | kv :: m, k, v => by
      by_cases he : kv.1 = k
      · simp [alSet, he, alHas, alLookup]
      · simp only [alSet, if_neg he, List.map_cons, alSet_map_fst m k v, alHas, alLookup,
          if_neg he]
        by_cases hh : (alLookup m k).isSome
        · simp [hh]
        · simp [hh]

theorem alSet_keys_nodup {κ α : Type} [DecidableEq κ] (m : List (κ × α)) (k : κ) (v : α)
    (h : (m.map Prod.fst).Nodup) : ((alSet m k v).map Prod.fst).Nodup := by
  rw [alSet_map_fst]
  by_cases hh : alHas m k
  · rw [if_pos hh]
    exact h
  · rw [if_neg hh]
    rw [List.nodup_append]
    refine ⟨h, List.nodup_singleton k, ?_⟩
    intro a ha hb
    rw [List.mem_singleton] at hb
    subst hb
    have hnone : alLookup m a = none := by
      cases hl : alLookup m a with
      | none => rfl
      | some v2 =>
          rw [show alHas m a = true from by simp [alHas, hl]] at hh
          exact absurd rfl hh
    exact alLookup_none_not_mem m a hnone ha

theorem alExtend_keys_nodup {κ α : Type} [DecidableEq κ] :
    ∀ (src dst : List (κ × α)), (dst.map Prod.fst).Nodup →
      ((alExtend dst src).map Prod.fst).Nodup
  | [], _, h => h
  | kv :: src, dst, h =>
      alExtend_keys_nodup src (alSet dst kv.1 kv.2) (alSet_keys_nodup dst kv.1 kv.2 h)

theorem alOmit_keys_nodup {κ α : Type} [DecidableEq κ] (m : List (κ × α)) (ks : List κ)
    (h : (m.map Prod.fst).Nodup) : ((alOmit m ks).map Prod.fst).Nodup :=
  List.Nodup.sublist ((List.filter_sublist m).map Prod.fst) h

theorem alPick_keys_nodup {κ α : Type} [DecidableEq κ] (m : List (κ × α)) (ks : List κ)
    (h : (m.map Prod.fst).Nodup) : ((alPick m ks).map Prod.fst).Nodup :=
  List.Nodup.sublist ((List.filter_sublist m).map Prod.fst) h

theorem getResolvablesAux_keys_nodup (omitOwn : List K) :
    ∀ (p : PathM) (memo : List (K × ResolvableR)), (memo.map Prod.fst).Nodup →
      ((getResolvablesAux omitOwn memo p).map Prod.fst).Nodup
  | [], _, h => h
  | [pe], memo, h => alExtend_keys_nodup (alOmit pe.resolvables omitOwn) memo h
  | pe :: pe2 :: rest, memo, h =>
      getResolvablesAux_keys_nodup omitOwn (pe2 :: rest) (alExtend memo pe.resolvables)
        (alExtend_keys_nodup pe.resolvables memo h)

theorem getResolvables_keys_nodup (p : PathM) (omitOwn : List K) :
    ((getResolvables p omitOwn).map Prod.fst).Nodup :=
  getResolvablesAux_keys_nodup omitOwn p [] List.nodup_nil

theorem alLookup_map_data :
    ∀ (m : List (K × ResolvableR)) (k : K),
      alLookup (m.map (fun kv => (kv.1, kv.2.data))) k =
        (alLookup m k).map (fun rr => rr.data)
  | [], _ => rfl
  | kv :: m, k => by
      by_cases he : kv.1 = k
      · simp [alLookup, he]
      · simp [alLookup, he, alLookup_map_data m k]

/-- C1 amended: `invokeNow` gathers the already-resolved data of the in-scope
resolvables whose names match `fn`'s declared parameters and merges them over
the caller-supplied locals such that, on a name collision, the *resolved*
value (even an unset `undefined` slot) is the one passed to `fn`; the local
loses. -/
theorem invokeNow_resolved_wins (p : PathM) (i : Nat) (fnParams : List K)
    (locals : List (K × V)) (nm : K) (r : ResolvableR)
    (hr : alLookup (alPick (getResolvables (pathFromRoot p i) []) fnParams) nm = some r) :
    alLookup (invokeNowCombinedLocals p i fnParams locals) nm = some r.data := by
  unfold invokeNowCombinedLocals
  have h2 : ((alPick (getResolvables (pathFromRoot p i) []) fnParams).map Prod.fst).Nodup :=
    alPick_keys_nodup _ _ (getResolvables_keys_nodup (pathFromRoot p i) [])
  have hnd : (((alPick (getResolvables (pathFromRoot p i) []) fnParams).map
      (fun kv => (kv.1, kv.2.data))).map Prod.fst).Nodup := by
    simpa [List.map_map, Function.comp] using h2
  rw [alLookup_extend _ _ _ hnd, alLookup_map_data, hr]
  rfl

/-- Witness for the amended C1 at the counterexample path. -/
theorem invokeNow_resolved_wins_witness :
    alLookup (invokeNowCombinedLocals cexPath 0 ["x"] [("x", 1)]) "x" =
      some (⟨"x", [], some 3, some 2⟩ : ResolvableR).data :=
  invokeNow_resolved_wins cexPath 0 ["x"] [("x", 1)] "x" ⟨"x", [], some 3, some 2⟩ rfl

def trivialBody : List (Option V) → Except Err V := fun _ => Except.ok 0

/-- The mapping of C4: a cycle `A→B→C→A` plus an unrelated invocable `D`. -/
def cyclicMapping : Mapping :=
  [("A", Invocable.fn ["B"] trivialBody), ("B", Invocable.fn ["C"] trivialBody),
   ("C", Invocable.fn ["A"] trivialBody), ("D", Invocable.fn [] trivialBody)]

/-- C4: a mapping containing the cycle `A→B→C→A` makes `study` fail (it is a
pure function that performs no promise work, so the failure is synchronous)
with the visitation trace truncated to start at the repeated name `A`, joined
by `" -> "` in the error message; the trace contains exactly the names
`A`, `B`, `C` in visitation order — in particular the unrelated invocable `D`
does not appear. -/
theorem study_cyclic_fails_with_minimal_cycle :
    study cyclicMapping = Except.error (StudyErr.cyclic ["A", "B", "C", "A"]) ∧
    cycleErrorMessage ["A", "B", "C", "A"] = "Cyclic dependency: A -> B -> C -> A" ∧
    (∀ k, k ∈ (["A", "B", "C", "A"] : List K) ↔ (k = "A" ∨ k = "B" ∨ k = "C")) ∧
    "D" ∉ (["A", "B", "C", "A"] : List K) := by
  refine ⟨rfl, rfl, ?_, by decide⟩
  intro k
  constructor
  · intro h
    simp only [List.mem_cons, List.not_mem_nil, or_false] at h
    tauto
  · intro h
    simp only [List.mem_cons]
    tauto

end UIRouter
